import Mathlib

/-!
# Servitor: PKCS7 padding, the Alpha / Beta providers, the Omega facade; `getNextId`

A shallow embedding of `servitor/servitor/servitor.go`, `servitor_alpha.go`,
`servitor_beta.go` and `servitor_omega.go`, and of `getNextId` of
`task-tracker/storage.go` and `expense-tracker/storage.go`.

* A Go `[]byte` is a `List Byte` with `Byte = Fin 256`; a Go `int` is an `Int`.  In the
  Servitor package every `int` the code computes with stays far inside the 64-bit range
  once the guards have passed; `getNextId` adds 1 to an arbitrary `int`, so its sum wraps
  around (`wrapInt64`).
* A Go function returning `(value, error)` returns a `GoResult`: either the value,
  or a returned `error` value, or a run-time panic.  The two kinds of failure are
  kept apart (`Failure.error` / `Failure.panic`).  At the provider interfaces of the
  facade, where any implementation may return a value next to an error, a call returns
  the pair itself (`Returned`).
* Functions are modelled by the bytes they return.  The one write into memory the
  caller still holds, `append(text, padding...)` in `addPKCS7Padding`, is modelled apart,
  over slices of a caller's memory (`addPKCS7PaddingInPlace`,
  `SymmetricEncryptionInPlace`).
* The block cipher (`crypto/aes`), the Salsa20 key stream and the random sources
  are parameters of the model; CBC chaining, slicing, `copy`, `append`,
  `bytes.Repeat`, `bytes.HasSuffix`, `encoding/hex`, `encoding/base64` and the UUID
  library are modelled concretely.
-/

namespace Servitor

/-! ## Bytes, errors, results -/

/-- A Go `byte`. -/
abbrev Byte := Fin 256

/-- The Go conversion `byte(n)` of an `int`: the low eight bits. -/
def byteOfInt (n : Int) : Byte := ⟨(n % 256).toNat, by omega⟩

/-- The Go conversion `int(b)` of a `byte`. -/
def intOfByte (b : Byte) : Int := (b.val : Int)

/-- Bitwise exclusive or of two bytes. -/
def xorByte (a b : Byte) : Byte := ⟨(a.val ^^^ b.val) % 256, Nat.mod_lt _ (by decide)⟩

/-- The error values the package returns, one constructor per `fmt.Errorf` call site
(or library error), carrying the formatted arguments. -/
inductive ServitorError where
  /-- Message `"invalid block size: %d, must be 1-255"`. -/
  | invalidBlockSize (blockSize : Int)
  /-- Message `"invalid plaintext"` (empty input of `removePKCS7Padding`). -/
  | invalidPlaintext
  /-- Message `"invalid plaintext length"`. -/
  | invalidPlaintextLength
  /-- Message `"invalid padding"`. -/
  | invalidPadding
  /-- Message `"invalid key length: %d, must be 16, 24, or 32"` (Alpha). -/
  | invalidKeyLengthAlpha (len : Int)
  /-- Message `"invalid key length: %d, must be %d"` (Beta). -/
  | invalidKeyLengthBeta (len : Int) (want : Int)
  /-- The `aes.KeySizeError` returned by `aes.NewCipher`. -/
  | aesKeySizeError (len : Int)
  /-- The error returned by a failing `rand.Read`. -/
  | randRead
  deriving DecidableEq, Repr

/-- Run-time panics of the Go runtime and of the standard / x-crypto libraries. -/
inductive GoPanic where
  /-- Runtime: integer divide by zero. -/
  | divideByZero
  /-- Runtime: index out of range. -/
  | indexOutOfRange
  /-- Runtime: slice bounds out of range. -/
  | sliceBounds
  /-- Runtime: `makeslice: len out of range`. -/
  | makesliceLen
  /-- Library: `bytes: negative Repeat count`. -/
  | negativeRepeatCount
  /-- Library: `cipher.NewCBCEncrypter: IV length must equal block size`. -/
  | cbcIVLength
  /-- Library: `crypto/cipher: input not full blocks`. -/
  | cbcInputNotFullBlocks
  /-- Library: `crypto/cipher: output smaller than input` and
  `salsa20: output smaller than input`. -/
  | outputSmallerThanInput
  /-- Library: `salsa20: nonce must be 8 or 24 bytes`. -/
  | salsa20Nonce
  /-- Library: `invalid argument to Intn` (`math/rand`). -/
  | intnArgument
  /-- Library: the panic of `uuid.Must` on an error of `uuid.NewRandom`. -/
  | uuidMust
  deriving DecidableEq, Repr

/-- How a call can fail: with a returned error value or with a panic. -/
inductive Failure where
  | error (e : ServitorError)
  | panic (p : GoPanic)
  deriving DecidableEq, Repr

deriving instance DecidableEq for Except

/-- The outcome of a Go call returning `(value, error)`. -/
abbrev GoResult (α : Type) := Except Failure α

/-- Return an error value (`return nil, err`). -/
def goErr {α : Type} (e : ServitorError) : GoResult α := Except.error (Failure.error e)

/-- Panic. -/
def goPanic {α : Type} (p : GoPanic) : GoResult α := Except.error (Failure.panic p)

/-! ## Go primitives -/

/-- The Go remainder `a % b` on `int`: truncated, panics on a zero divisor. -/
def goRem (a b : Int) : GoResult Int :=
  if b = 0 then goPanic GoPanic.divideByZero else pure (a.tmod b)

/-- The Go index expression `s[i]`. -/
def goIndex (s : List Byte) (i : Int) : GoResult Byte :=
  if i < 0 then goPanic GoPanic.indexOutOfRange
  else match s[i.toNat]? with
    | some b => pure b
    | none => goPanic GoPanic.indexOutOfRange

/-- The Go slice expression `s[:hi]`, for a slice whose capacity is its length.  (Go
allows `hi` up to the capacity.  At the two call sites where `hi` can exceed the length,
`ciphertext[:aes.BlockSize]` and `ciphertext[:sb.Salsa20NonceLength]` with a nonce length
of 8 or 24, the next statement slices the same `ciphertext` from a lower bound at least
`hi`, which panics in the same way whatever the capacity is.) -/
def goSliceTo (s : List Byte) (hi : Int) : GoResult (List Byte) :=
  if hi < 0 ∨ hi > (s.length : Int) then goPanic GoPanic.sliceBounds
  else pure (s.take hi.toNat)

/-- The Go slice expression `s[lo:]`. -/
def goSliceFrom (s : List Byte) (lo : Int) : GoResult (List Byte) :=
  if lo < 0 ∨ lo > (s.length : Int) then goPanic GoPanic.sliceBounds
  else pure (s.drop lo.toNat)

/-- The Go call `make([]byte, n)`: `n` zero bytes. -/
def goMake (n : Int) : GoResult (List Byte) :=
  if n < 0 then goPanic GoPanic.makesliceLen
  else pure (List.replicate n.toNat (0 : Byte))

/-- The call `bytes.Repeat(b, count)`. -/
def bytesRepeat (b : List Byte) (count : Int) : GoResult (List Byte) :=
  if count < 0 then goPanic GoPanic.negativeRepeatCount
  else pure (List.replicate count.toNat b).flatten

/-- The call `bytes.HasSuffix(s, suffix)`:
`len(s) >= len(suffix) && bytes.Equal(s[len(s)-len(suffix):], suffix)`. -/
def bytesHasSuffix (s suffix : List Byte) : Bool :=
  decide (s.length ≥ suffix.length) && (s.drop (s.length - suffix.length) == suffix)

/-! ## `servitor.go`: PKCS7 padding -/

/-- The function `addPKCS7Padding(text, blockSize)`, for the bytes it returns.  Its last
statement, `append(text, padding...)`, also writes the padding into the backing array of
`text` when `text` has spare capacity; `addPKCS7PaddingInPlace` models that effect on
the caller's memory, and returns these same bytes. -/
def addPKCS7Padding (text : List Byte) (blockSize : Int) : GoResult (List Byte) :=
  if blockSize < 1 ∨ blockSize > 255 then
    goErr (ServitorError.invalidBlockSize blockSize)
  else do
    let r ← goRem (text.length : Int) blockSize
    let paddingLength := blockSize - r
    let padding ← bytesRepeat [byteOfInt paddingLength] paddingLength
    pure (text ++ padding)

/-- The function `removePKCS7Padding(text, blockSize)`. -/
def removePKCS7Padding (text : List Byte) (blockSize : Int) : GoResult (List Byte) :=
  if blockSize < 1 ∨ blockSize > 255 then
    goErr (ServitorError.invalidBlockSize blockSize)
  else if text.length = 0 then
    goErr ServitorError.invalidPlaintext
  else do
    let r ← goRem (text.length : Int) blockSize
    if r ≠ 0 then
      goErr ServitorError.invalidPlaintextLength
    else do
      let last ← goIndex text ((text.length : Int) - 1)
      let paddingLength := intOfByte last
      let paddingBytes ← bytesRepeat [byteOfInt paddingLength] paddingLength
      if paddingLength = 0 ∨ paddingLength > blockSize
          ∨ !bytesHasSuffix text paddingBytes then
        goErr ServitorError.invalidPadding
      else
        goSliceTo text ((text.length : Int) - paddingLength)

/-! ## Library collaborators: random source, block cipher, CBC mode, Salsa20 -/

/-- The call `copy(dst, src)`: the first `min(len(dst), len(src))` bytes of `dst` are
overwritten by those of `src`. -/
def goCopy (dst src : List Byte) : List Byte :=
  src.take dst.length ++ dst.drop src.length

/-- The secure random source behind `crypto/rand.Read`: whether a read fails, and the
bytes a successful read delivers. -/
structure RandSource where
  fails : Bool
  bytes : Nat → Byte

/-- The call `rand.Read(buf)`: on success `buf` is filled, over its whole length, with
bytes of the source. -/
def randRead (rs : RandSource) (buf : List Byte) : GoResult (List Byte) :=
  if rs.fails then goErr ServitorError.randRead
  else pure ((List.range buf.length).map rs.bytes)

/-- The constant `aes.BlockSize`. -/
def aesBlockSize : Int := 16

/-- A `cipher.Block` of block size 16: `Encrypt` and `Decrypt` map a 16-byte block to a
16-byte block. -/
structure CipherBlock where
  encrypt : List Byte → List Byte
  decrypt : List Byte → List Byte
  encrypt_length : ∀ x : List Byte, x.length = 16 → (encrypt x).length = 16
  decrypt_length : ∀ x : List Byte, x.length = 16 → (decrypt x).length = 16

/-- The AES primitive, a parameter of the model: the block cipher a key selects. -/
abbrev AES := List Byte → CipherBlock

/-- The assumption that the block cipher's decryption inverts its encryption under the
same key. -/
def CipherBlock.Inverts (b : CipherBlock) : Prop :=
  ∀ x : List Byte, x.length = 16 → b.decrypt (b.encrypt x) = x

/-- The call `aes.NewCipher(key)`: `KeySizeError` unless the key is 16, 24 or 32 bytes. -/
def aesNewCipher (aes : AES) (key : List Byte) : GoResult CipherBlock :=
  if key.length = 16 ∨ key.length = 24 ∨ key.length = 32 then pure (aes key)
  else goErr (ServitorError.aesKeySizeError (key.length : Int))

/-- The call `subtle.XORBytes`: byte-wise xor over the common length. -/
def xorBytes (x y : List Byte) : List Byte := List.zipWith xorByte x y

/-- A CBC block mode: the block cipher and the initialisation vector. -/
structure CBCMode where
  block : CipherBlock
  iv : List Byte

/-- The calls `cipher.NewCBCEncrypter(block, iv)` and `cipher.NewCBCDecrypter(block, iv)`:
panic unless the IV has the block size. -/
def newCBC (block : CipherBlock) (iv : List Byte) : GoResult CBCMode :=
  if (iv.length : Int) ≠ aesBlockSize then goPanic GoPanic.cbcIVLength
  else pure (CBCMode.mk block iv)

/-- The loop of the CBC encrypter over `n` blocks: each block is xored with the previous
ciphertext block (the IV for the first) and encrypted. -/
def cbcEncryptLoop (b : CipherBlock) : Nat → List Byte → List Byte → List Byte
  | 0, _, _ => []
  | n + 1, iv, src =>
    let c := b.encrypt (xorBytes (src.take 16) iv)
    c ++ cbcEncryptLoop b n c (src.drop 16)

/-- The loop of the CBC decrypter over `n` blocks: each block is decrypted and xored with
the previous ciphertext block (the IV for the first). -/
def cbcDecryptLoop (b : CipherBlock) : Nat → List Byte → List Byte → List Byte
  | 0, _, _ => []
  | n + 1, iv, src =>
    let c := src.take 16
    xorBytes (b.decrypt c) iv ++ cbcDecryptLoop b n c (src.drop 16)

/-- The call `mode.CryptBlocks(dst, src)` of a CBC encrypter; the result is `dst` after
the call. -/
def CBCMode.encryptBlocks (m : CBCMode) (dst src : List Byte) : GoResult (List Byte) :=
  if src.length % 16 ≠ 0 then goPanic GoPanic.cbcInputNotFullBlocks
  else if dst.length < src.length then goPanic GoPanic.outputSmallerThanInput
  else pure (cbcEncryptLoop m.block (src.length / 16) m.iv src ++ dst.drop src.length)

/-- The call `mode.CryptBlocks(dst, src)` of a CBC decrypter; the result is `dst` after
the call. -/
def CBCMode.decryptBlocks (m : CBCMode) (dst src : List Byte) : GoResult (List Byte) :=
  if src.length % 16 ≠ 0 then goPanic GoPanic.cbcInputNotFullBlocks
  else if dst.length < src.length then goPanic GoPanic.outputSmallerThanInput
  else pure (cbcDecryptLoop m.block (src.length / 16) m.iv src ++ dst.drop src.length)

/-- The Salsa20 key stream (XSalsa20 for a 24-byte nonce), a parameter of the model:
the byte at each position of the stream a nonce and a key select. -/
abbrev KeyStream := List Byte → List Byte → Nat → Byte

/-- The call `salsa20.XORKeyStream(out, in, nonce, key)`; the result is `out` after the
call. -/
def salsa20XORKeyStream (ks : KeyStream) (out inp nonce key : List Byte) :
    GoResult (List Byte) :=
  if out.length < inp.length then goPanic GoPanic.outputSmallerThanInput
  else if nonce.length = 24 ∨ nonce.length = 8 then
    pure (xorBytes inp ((List.range inp.length).map (ks nonce key)) ++ out.drop inp.length)
  else goPanic GoPanic.salsa20Nonce

/-! ## `servitor_alpha.go` -/

/-- The variable `aesValidKeyLengths`. -/
def aesValidKeyLengths : List Int := [16, 24, 32]

/-- The type `ServitorAlpha` (no fields). -/
structure ServitorAlpha where
  deriving DecidableEq, Repr

/-- The function `NewServitorAlpha`. -/
def NewServitorAlpha : ServitorAlpha := ServitorAlpha.mk

/-- The method `(*ServitorAlpha).SymmetricEncryption(key, plaintext)`. -/
def ServitorAlpha.SymmetricEncryption (_sa : ServitorAlpha) (aes : AES) (rs : RandSource)
    (key plaintext : List Byte) : GoResult (List Byte) := do
  let buf ← goMake aesBlockSize
  let iv ← randRead rs buf
  let validKeyLength := aesValidKeyLengths.any (fun length => decide ((key.length : Int) = length))
  if !validKeyLength then
    goErr (ServitorError.invalidKeyLengthAlpha (key.length : Int))
  else do
    let block ← aesNewCipher aes key
    let mode ← newCBC block iv
    let paddedPlaintext ← addPKCS7Padding plaintext aesBlockSize
    let dst ← goMake (paddedPlaintext.length : Int)
    let ciphertext ← mode.encryptBlocks dst paddedPlaintext
    pure (iv ++ ciphertext)

/-- The method `(*ServitorAlpha).SymmetricDecryption(key, ciphertext)`. -/
def ServitorAlpha.SymmetricDecryption (_sa : ServitorAlpha) (aes : AES)
    (key ciphertext : List Byte) : GoResult (List Byte) := do
  let iv ← goSliceTo ciphertext aesBlockSize
  let ciphertextWithoutIV ← goSliceFrom ciphertext aesBlockSize
  let block ← aesNewCipher aes key
  let mode ← newCBC block iv
  let dst ← goMake (ciphertextWithoutIV.length : Int)
  let plaintext ← mode.decryptBlocks dst ciphertextWithoutIV
  removePKCS7Padding plaintext aesBlockSize

/-! ## Padding and Alpha's encryption over the caller's memory -/

/-- A Go slice header over the caller's memory: where the slice starts, its length, and
its capacity (counted from its start). -/
structure SliceRef where
  off : Nat
  len : Nat
  cap : Nat
  deriving DecidableEq, Repr

/-- The bytes a slice shows in a memory. -/
def SliceRef.read (s : SliceRef) (mem : List Byte) : List Byte :=
  (mem.drop s.off).take s.len

/-- A memory after `bytes` are stored from offset `off` on. -/
def memWrite (mem : List Byte) (off : Nat) (bytes : List Byte) : List Byte :=
  mem.take off ++ bytes ++ mem.drop (off + bytes.length)

/-- The call `append(text, extra...)`: the bytes of the resulting slice and the caller's
memory after the call.  When the spare capacity of `text` holds `extra`, the bytes are
stored right behind `text` in its backing array; otherwise a new array is allocated and
the caller's memory stays as it is. -/
def goAppend (mem : List Byte) (text : SliceRef) (extra : List Byte) :
    List Byte × List Byte :=
  if text.len + extra.length ≤ text.cap then
    (text.read mem ++ extra, memWrite mem (text.off + text.len) extra)
  else (text.read mem ++ extra, mem)

/-- The function `addPKCS7Padding(text, blockSize)` on a slice of the caller's memory: the
bytes it returns and the caller's memory after the call. -/
def addPKCS7PaddingInPlace (mem : List Byte) (text : SliceRef) (blockSize : Int) :
    GoResult (List Byte × List Byte) :=
  if blockSize < 1 ∨ blockSize > 255 then
    goErr (ServitorError.invalidBlockSize blockSize)
  else do
    let r ← goRem (text.len : Int) blockSize
    let paddingLength := blockSize - r
    let padding ← bytesRepeat [byteOfInt paddingLength] paddingLength
    pure (goAppend mem text padding)

/-- The method `(*ServitorAlpha).SymmetricEncryption(key, plaintext)` on slices of the
caller's memory: the bytes it returns and the caller's memory after the call.  The cipher
is built from the bytes the key holds before the padding is appended; the IV, the
ciphertext buffer and the result are fresh allocations. -/
def ServitorAlpha.SymmetricEncryptionInPlace (_sa : ServitorAlpha) (aes : AES)
    (rs : RandSource) (mem : List Byte) (key plaintext : SliceRef) :
    GoResult (List Byte × List Byte) := do
  let buf ← goMake aesBlockSize
  let iv ← randRead rs buf
  let validKeyLength := aesValidKeyLengths.any (fun length => decide ((key.len : Int) = length))
  if !validKeyLength then
    goErr (ServitorError.invalidKeyLengthAlpha (key.len : Int))
  else do
    let block ← aesNewCipher aes (key.read mem)
    let mode ← newCBC block iv
    let (paddedPlaintext, memAfter) ← addPKCS7PaddingInPlace mem plaintext aesBlockSize
    let dst ← goMake (paddedPlaintext.length : Int)
    let ciphertext ← mode.encryptBlocks dst paddedPlaintext
    pure (iv ++ ciphertext, memAfter)

/-! ## `servitor_beta.go` -/

/-- The constant `minPasswordLength`. -/
def minPasswordLength : Int := 16
/-- The constant `maxPasswordLength`. -/
def maxPasswordLength : Int := 64
/-- The constant `defaultPasswordLength`. -/
def defaultPasswordLength : Int := 32
/-- The constant `defaultSalsa20NonceLength`. -/
def defaultSalsa20NonceLength : Int := 24
/-- The constant `defaultSalsa20KeyLength`. -/
def defaultSalsa20KeyLength : Int := 32
/-- The variable `salsa20ValidNonceLengths`. -/
def salsa20ValidNonceLengths : List Int := [8, 24]

/-- The type `ServitorBeta`. -/
structure ServitorBeta where
  PasswordLength : Int
  Salsa20NonceLength : Int
  deriving DecidableEq, Repr

/-- The `for ... range salsa20ValidNonceLengths` loop of `NewServitorBeta`: the requested
length is taken at the first valid length it equals (`break`), else the current value
stays. -/
def nonceLengthLoop (requested : Int) : List Int → Int → Int
  | [], current => current
  | validNonceLength :: rest, current =>
    if requested = validNonceLength then requested else nonceLengthLoop requested rest current

/-- The function `NewServitorBeta(passwordLength, Salsa20NonceLength)`. -/
def NewServitorBeta (passwordLength Salsa20NonceLength : Int) : ServitorBeta :=
  let result := ServitorBeta.mk passwordLength 0
  let result :=
    if passwordLength < minPasswordLength ∨ passwordLength > maxPasswordLength then
      ServitorBeta.mk defaultPasswordLength result.Salsa20NonceLength
    else result
  let result := ServitorBeta.mk result.PasswordLength defaultSalsa20NonceLength
  ServitorBeta.mk result.PasswordLength
    (nonceLengthLoop Salsa20NonceLength salsa20ValidNonceLengths result.Salsa20NonceLength)

/-- The constant `allowablePasswordCharacters`.  All its characters are ASCII, so the
bytes Go indexes and writes are these characters one by one. -/
def allowablePasswordCharacters : String :=
  "abcdefghijklmnopqrstuvwxyzABCDEFGHIJKLMNOPQRSTUVWXYZ0123456789~!@#$%^&*()_+-="

/-- The outcomes of the non-cryptographic generator behind `math/rand`: the raw value
behind the `call`-th draw. -/
abbrev IntnSource := Nat → Nat

/-- The call `rand.Intn(n)`: panics unless `n > 0`, else a value in `[0, n)`. -/
def randIntn (src : IntnSource) (call : Nat) (n : Int) : GoResult Int :=
  if n ≤ 0 then goPanic GoPanic.intnArgument else pure ((src call : Int) % n)

/-- The Go index expression `s[i]` on a string of ASCII characters. -/
def goStringIndex (s : List Char) (i : Int) : GoResult Char :=
  if i < 0 then goPanic GoPanic.indexOutOfRange
  else match s[i.toNat]? with
    | some c => pure c
    | none => goPanic GoPanic.indexOutOfRange

/-- The loop `for range sb.PasswordLength` of `DefaultPassword`, with `n` iterations left,
`call` draws made so far and `password` the contents of the builder. -/
def passwordLoop (src : IntnSource) : Nat → Nat → List Char → GoResult (List Char)
  | 0, _, password => pure password
  | n + 1, call, password => do
    let index ← randIntn src call (allowablePasswordCharacters.toList.length : Int)
    let randomChar ← goStringIndex allowablePasswordCharacters.toList index
    passwordLoop src n (call + 1) (password ++ [randomChar])

/-- The method `(*ServitorBeta).DefaultPassword()`. -/
def ServitorBeta.DefaultPassword (sb : ServitorBeta) (src : IntnSource) : GoResult String := do
  let password ← passwordLoop src sb.PasswordLength.toNat 0 []
  pure (String.mk password)

/-- The method `(*ServitorBeta).SymmetricEncryption(key, plaintext)`. -/
def ServitorBeta.SymmetricEncryption (sb : ServitorBeta) (ks : KeyStream) (rs : RandSource)
    (key plaintext : List Byte) : GoResult (List Byte) := do
  let buf ← goMake sb.Salsa20NonceLength
  let nonce ← randRead rs buf
  if (key.length : Int) ≠ defaultSalsa20KeyLength then
    goErr (ServitorError.invalidKeyLengthBeta (key.length : Int) defaultSalsa20KeyLength)
  else do
    let keyArray := goCopy (List.replicate 32 (0 : Byte)) key
    let dst ← goMake (plaintext.length : Int)
    let ciphertext ← salsa20XORKeyStream ks dst plaintext nonce keyArray
    pure (nonce ++ ciphertext)

/-- The method `(*ServitorBeta).SymmetricDecryption(key, ciphertext)`; the remainder is
sliced at the literal 24 of the source. -/
def ServitorBeta.SymmetricDecryption (sb : ServitorBeta) (ks : KeyStream)
    (key ciphertext : List Byte) : GoResult (List Byte) := do
  let nonce ← goSliceTo ciphertext sb.Salsa20NonceLength
  let ciphertextWithoutNonce ← goSliceFrom ciphertext 24
  if (key.length : Int) ≠ defaultSalsa20KeyLength then
    goErr (ServitorError.invalidKeyLengthBeta (key.length : Int) defaultSalsa20KeyLength)
  else do
    let keyArray := goCopy (List.replicate 32 (0 : Byte)) key
    let dst ← goMake (ciphertextWithoutNonce.length : Int)
    salsa20XORKeyStream ks dst ciphertextWithoutNonce nonce keyArray

/-! ## `servitor.go`: the encoding wrappers, over `encoding/hex` and `encoding/base64` -/

/-- The errors of the decoders of `encoding/hex`, `encoding/base64` and `uuid.Parse`. -/
inductive EncodingError where
  /-- The error `hex.InvalidByteError` for the offending byte. -/
  | hexInvalidByte (b : Byte)
  /-- The error `hex.ErrLength`. -/
  | hexErrLength
  /-- The error `base64.CorruptInputError` (its offset is not modelled). -/
  | base64CorruptInput
  /-- The error "invalid UUID format" of `uuid.Parse`. -/
  | uuidInvalidFormat
  /-- A length other than 36 given to `uuid.Parse` (see `uuidParse`). -/
  | uuidOtherLength (len : Nat)
  deriving DecidableEq, Repr

/-- The Go conversion `byte(n)` of an unsigned value: the low eight bits. -/
def byteOfNat (n : Nat) : Byte := ⟨n % 256, Nat.mod_lt _ (by decide)⟩

/-- The table `hextable` of `encoding/hex`. -/
def hextable : String := "0123456789abcdef"

/-- The character `hextable[n]`. -/
def hexDigit (n : Nat) : Char := hextable.toList.getD n '0'

/-- The table `reverseHexTable` of `encoding/hex`: the value of a hexadecimal digit of
either case, `none` for the entry `0xff` of every other character. -/
def fromHexChar (c : Char) : Option Nat :=
  if '0' ≤ c ∧ c ≤ '9' then some (c.toNat - '0'.toNat)
  else if 'a' ≤ c ∧ c ≤ 'f' then some (c.toNat - 'a'.toNat + 10)
  else if 'A' ≤ c ∧ c ≤ 'F' then some (c.toNat - 'A'.toNat + 10)
  else none

/-- The call `hex.Encode`: each byte `v` gives `hextable[v>>4]`, `hextable[v&0x0f]`. -/
def hexEncode : List Byte → List Char
  | [] => []
  | v :: rest => hexDigit (v.val / 16) :: hexDigit (v.val % 16) :: hexEncode rest

/-- The first byte of the UTF-8 encoding of a character: the character itself when it is
ASCII, the lead byte of its two, three or four bytes otherwise. -/
def utf8FirstByte (c : Char) : Byte :=
  if c.toNat < 128 then byteOfNat c.toNat
  else if c.toNat < 2048 then byteOfNat (192 + c.toNat / 64)
  else if c.toNat < 65536 then byteOfNat (224 + c.toNat / 4096)
  else byteOfNat (240 + c.toNat / 262144)

/-- The call `hex.Decode`, for its error or, without error, its bytes: pairs of digits
give `(a << 4) | b`; the first invalid byte is reported, and an odd length after that.
The library walks the bytes of the string; every character before the first invalid one
is an ASCII digit, and the first invalid byte is the first byte of the first invalid
character. -/
def hexDecode : List Char → Except EncodingError (List Byte)
  | [] => pure []
  | [p] =>
    match fromHexChar p with
    | none => Except.error (EncodingError.hexInvalidByte (utf8FirstByte p))
    | some _ => Except.error EncodingError.hexErrLength
  | p :: q :: rest =>
    match fromHexChar p with
    | none => Except.error (EncodingError.hexInvalidByte (utf8FirstByte p))
    | some a =>
      match fromHexChar q with
      | none => Except.error (EncodingError.hexInvalidByte (utf8FirstByte q))
      | some b => do
        let tail ← hexDecode rest
        pure (byteOfNat (a * 16 + b) :: tail)

/-- The function `HexEncode(data)`. -/
def HexEncode (data : List Byte) : String := String.mk (hexEncode data)

/-- The function `HexDecode(data)`. -/
def HexDecode (data : String) : Except EncodingError (List Byte) := hexDecode data.toList

/-- The alphabet `encodeStd` of `base64.StdEncoding`. -/
def encodeStd : String :=
  "ABCDEFGHIJKLMNOPQRSTUVWXYZabcdefghijklmnopqrstuvwxyz0123456789+/"

/-- The padding character `base64.StdPadding`. -/
def base64Pad : Char := '='

/-- The character `enc.encode[n]`. -/
def base64Digit (n : Nat) : Char := encodeStd.toList.getD n 'A'

/-- The table `enc.decodeMap`: the position of a character in the alphabet, `none` for
the entry `0xff` of every other character. -/
def base64Index (c : Char) : Option Nat :=
  if encodeStd.toList.indexOf c < 64 then some (encodeStd.toList.indexOf c) else none

/-- The call `base64.StdEncoding.Encode`: three bytes give four characters of the 24-bit
value `b0<<16 | b1<<8 | b2`, six bits each; a last block of one or two bytes gives two or
three characters and `=` padding up to four. -/
def base64Encode : List Byte → List Char
  | x :: y :: z :: rest =>
    let val := x.val * 65536 + y.val * 256 + z.val
    base64Digit (val / 262144 % 64) :: base64Digit (val / 4096 % 64)
      :: base64Digit (val / 64 % 64) :: base64Digit (val % 64) :: base64Encode rest
  | [x, y] =>
    let val := x.val * 65536 + y.val * 256
    [base64Digit (val / 262144 % 64), base64Digit (val / 4096 % 64),
      base64Digit (val / 64 % 64), base64Pad]
  | [x] =>
    let val := x.val * 65536
    [base64Digit (val / 262144 % 64), base64Digit (val / 4096 % 64), base64Pad, base64Pad]
  | [] => []

/-- The quanta of `base64.StdEncoding.Decode` (not strict), on input without line breaks,
for its error or, without error, its bytes: four characters of the alphabet give three
bytes of the value `d0<<18 | d1<<12 | d2<<6 | d3`; the last quantum may end in `=` (two
bytes) or `==` (one byte); anything else is corrupt input. -/
def base64DecodeQuanta : List Char → Except EncodingError (List Byte)
  | [] => pure []
  | a :: b :: c :: d :: rest =>
    match base64Index a, base64Index b with
    | some ia, some ib =>
      match base64Index c, base64Index d with
      | some ic, some id => do
        let val := ia * 262144 + ib * 4096 + ic * 64 + id
        let tail ← base64DecodeQuanta rest
        pure (byteOfNat (val / 65536) :: byteOfNat (val / 256) :: byteOfNat val :: tail)
      | some ic, none =>
        let val := ia * 262144 + ib * 4096 + ic * 64
        if d = base64Pad ∧ rest = [] then
          pure [byteOfNat (val / 65536), byteOfNat (val / 256)]
        else Except.error EncodingError.base64CorruptInput
      | none, _ =>
        let val := ia * 262144 + ib * 4096
        if c = base64Pad ∧ d = base64Pad ∧ rest = [] then pure [byteOfNat (val / 65536)]
        else Except.error EncodingError.base64CorruptInput
    | _, _ => Except.error EncodingError.base64CorruptInput
  | _ => Except.error EncodingError.base64CorruptInput

/-- The line breaks (`\n` and `\r`) which the base64 decoder skips wherever they stand. -/
def isLineBreak (c : Char) : Bool := c = Char.ofNat 10 || c = Char.ofNat 13

/-- The function `Base64Encode(data)`. -/
def Base64Encode (data : List Byte) : String := String.mk (base64Encode data)

/-- The function `Base64Decode(data)`. -/
def Base64Decode (data : String) : Except EncodingError (List Byte) :=
  base64DecodeQuanta (data.toList.filter (fun c => !isLineBreak c))

/-! ## The library `github.com/google/uuid`, as `DefaultPassword` of Alpha uses it -/

/-- The call `uuid.NewRandom()`: sixteen random bytes with the version (4) and variant
(10) bits set, `uuid[6] = (uuid[6] & 0x0f) | 0x40` and `uuid[8] = (uuid[8] & 0x3f) | 0x80`;
the error of the random source otherwise. -/
def uuidNewRandom (rs : RandSource) : GoResult (List Byte) := do
  let uuid ← randRead rs (List.replicate 16 (0 : Byte))
  let uuid := uuid.set 6 (byteOfNat ((uuid.getD 6 0).val % 16 + 64))
  let uuid := uuid.set 8 (byteOfNat ((uuid.getD 8 0).val % 64 + 128))
  pure uuid

/-- The method `UUID.String()`: the form `xxxxxxxx-xxxx-xxxx-xxxx-xxxxxxxxxxxx` in
lowercase hexadecimal. -/
def uuidString (uuid : List Byte) : List Char :=
  hexEncode (uuid.take 4) ++ '-' :: hexEncode ((uuid.drop 4).take 2)
    ++ '-' :: hexEncode ((uuid.drop 6).take 2) ++ '-' :: hexEncode ((uuid.drop 8).take 2)
    ++ '-' :: hexEncode (uuid.drop 10)

/-- The call `uuid.NewString()`, that is `uuid.Must(uuid.NewRandom()).String()`: it
panics when the random source fails. -/
def uuidNewString (rs : RandSource) : GoResult String :=
  match uuidNewRandom rs with
  | Except.ok uuid => pure (String.mk (uuidString uuid))
  | Except.error _ => goPanic GoPanic.uuidMust

/-- The sixteen two-digit fields `xtob(s[x], s[x+1])` of `uuid.Parse`, at the given
offsets. -/
def uuidFields (s : List Char) : List Nat → Except EncodingError (List Byte)
  | [] => pure []
  | x :: rest =>
    match fromHexChar (s.getD x ' '), fromHexChar (s.getD (x + 1) ' ') with
    | some b1, some b2 => do
      let tail ← uuidFields s rest
      pure (byteOfNat (b1 * 16 + b2) :: tail)
    | _, _ => Except.error EncodingError.uuidInvalidFormat

/-- The call `uuid.Parse(s)` on the canonical 36-character form: hyphens at offsets 8, 13,
18 and 23 and two hexadecimal digits for each of the sixteen bytes.  (The library also
accepts the bare, braced and `urn:uuid:` forms of lengths 32, 38 and 45; this model
reports every length other than 36 as `uuidOtherLength`.) -/
def uuidParse (s : List Char) : Except EncodingError (List Byte) :=
  if s.length ≠ 36 then Except.error (EncodingError.uuidOtherLength s.length)
  else if s.getD 8 ' ' ≠ '-' ∨ s.getD 13 ' ' ≠ '-' ∨ s.getD 18 ' ' ≠ '-'
      ∨ s.getD 23 ' ' ≠ '-' then
    Except.error EncodingError.uuidInvalidFormat
  else uuidFields s [0, 2, 4, 6, 9, 11, 14, 16, 19, 21, 24, 26, 28, 30, 32, 34]

/-- The method `(*ServitorAlpha).DefaultPassword()`: `return uuid.NewString(), nil`. -/
def ServitorAlpha.DefaultPassword (_sa : ServitorAlpha) (rs : RandSource) : GoResult String :=
  uuidNewString rs

/-! ## `servitor_omega.go` -/

/-- The constant `AlgorithmUnknown`. -/
def AlgorithmUnknown : String := "Unknown"
/-- The constant `AlgorithmAES`. -/
def AlgorithmAES : String := "AES"
/-- The constant `AlgorithmSalsa20`. -/
def AlgorithmSalsa20 : String := "Salsa20"

/-- An `error` value at the provider interfaces: one of this package's errors, or the
error of another implementation. -/
inductive GoError where
  | servitor (e : ServitorError)
  | other (message : String)
  deriving DecidableEq, Repr

/-- What a call of an interface method returning `(value, error)` yields: a panic, or the
pair Go returns, in which the error may be `nil` (`none`) whatever the value is. -/
abbrev Returned (α : Type) := Except GoPanic (α × Option GoError)

/-- The pair an Alpha or Beta crypto method returns: `(bytes, nil)` on success and
`(nil, err)` on an error. -/
def returnedBytes (r : GoResult (List Byte)) : Returned (Option (List Byte)) :=
  match r with
  | Except.ok bytes => Except.ok (some bytes, none)
  | Except.error (Failure.error e) => Except.ok (none, some (GoError.servitor e))
  | Except.error (Failure.panic p) => Except.error p

/-- The pair `DefaultPassword` of Alpha or Beta returns. -/
def returnedString (r : GoResult String) : Returned String :=
  match r with
  | Except.ok password => Except.ok (password, none)
  | Except.error (Failure.error e) => Except.ok ("", some (GoError.servitor e))
  | Except.error (Failure.panic p) => Except.error p

/-- The collaborators the providers reach: the block cipher, the key stream and the
random sources. -/
structure Runtime where
  aes : AES
  ks : KeyStream
  rs : RandSource
  intn : IntnSource

/-- Any implementation of `PasswordProvider` other than Alpha and Beta. -/
structure OtherPasswordProvider where
  DefaultPassword : Returned String

/-- Any implementation of `CryptoProvider` other than Alpha and Beta. -/
structure OtherCryptoProvider where
  SymmetricEncryption : List Byte → List Byte → Returned (Option (List Byte))
  SymmetricDecryption : List Byte → List Byte → Returned (Option (List Byte))

/-- A (non-nil) value of the interface `PasswordProvider`, by its dynamic type. -/
inductive PasswordProvider where
  | alpha (sa : ServitorAlpha)
  | beta (sb : ServitorBeta)
  | other (impl : OtherPasswordProvider)

/-- A (non-nil) value of the interface `CryptoProvider`, by its dynamic type. -/
inductive CryptoProvider where
  | alpha (sa : ServitorAlpha)
  | beta (sb : ServitorBeta)
  | other (impl : OtherCryptoProvider)

/-- The method call `passwordProvider.DefaultPassword()`. -/
def PasswordProvider.DefaultPassword (p : PasswordProvider) (rt : Runtime) : Returned String :=
  match p with
  | PasswordProvider.alpha sa => returnedString (sa.DefaultPassword rt.rs)
  | PasswordProvider.beta sb => returnedString (sb.DefaultPassword rt.intn)
  | PasswordProvider.other impl => impl.DefaultPassword

/-- The method call `cryptoProvider.SymmetricEncryption(key, plaintext)`. -/
def CryptoProvider.SymmetricEncryption (c : CryptoProvider) (rt : Runtime)
    (key plaintext : List Byte) : Returned (Option (List Byte)) :=
  match c with
  | CryptoProvider.alpha sa => returnedBytes (sa.SymmetricEncryption rt.aes rt.rs key plaintext)
  | CryptoProvider.beta sb => returnedBytes (sb.SymmetricEncryption rt.ks rt.rs key plaintext)
  | CryptoProvider.other impl => impl.SymmetricEncryption key plaintext

/-- The method call `cryptoProvider.SymmetricDecryption(key, ciphertext)`. -/
def CryptoProvider.SymmetricDecryption (c : CryptoProvider) (rt : Runtime)
    (key ciphertext : List Byte) : Returned (Option (List Byte)) :=
  match c with
  | CryptoProvider.alpha sa => returnedBytes (sa.SymmetricDecryption rt.aes key ciphertext)
  | CryptoProvider.beta sb => returnedBytes (sb.SymmetricDecryption rt.ks key ciphertext)
  | CryptoProvider.other impl => impl.SymmetricDecryption key ciphertext

/-- The type switch `switch so.cryptoProvider.(type)` of `Encrypt` and `Decrypt`, which
assigns `algorithm` in the cases `*ServitorAlpha` and `*ServitorBeta` only. -/
def typeSwitch (c : CryptoProvider) (algorithm : String) : String :=
  match c with
  | CryptoProvider.alpha _ => AlgorithmAES
  | CryptoProvider.beta _ => AlgorithmSalsa20
  | CryptoProvider.other _ => algorithm

/-- The type `ServitorOmega`. -/
structure ServitorOmega where
  passwordProvider : PasswordProvider
  cryptoProvider : CryptoProvider

/-- The function `NewServitorOmega(passwordProvider, cryptoProvider)`. -/
def NewServitorOmega (passwordProvider : PasswordProvider) (cryptoProvider : CryptoProvider) :
    ServitorOmega :=
  ServitorOmega.mk passwordProvider cryptoProvider

/-- The method `(*ServitorOmega).GeneratePassword()`. -/
def ServitorOmega.GeneratePassword (so : ServitorOmega) (rt : Runtime) : Returned String :=
  so.passwordProvider.DefaultPassword rt

/-- The method `(*ServitorOmega).Encrypt(key, plaintext)`: the triple
`(bytes, algorithm, error)` it returns, or the provider's panic. -/
def ServitorOmega.Encrypt (so : ServitorOmega) (rt : Runtime) (key plaintext : List Byte) :
    Except GoPanic (Option (List Byte) × String × Option GoError) := do
  let algorithm := AlgorithmUnknown
  let (ciphertext, err) ← so.cryptoProvider.SymmetricEncryption rt key plaintext
  match err with
  | some e => pure (none, algorithm, some e)
  | none => pure (ciphertext, typeSwitch so.cryptoProvider algorithm, none)

/-- The method `(*ServitorOmega).Decrypt(key, ciphertext)`: the triple
`(bytes, algorithm, error)` it returns, or the provider's panic. -/
def ServitorOmega.Decrypt (so : ServitorOmega) (rt : Runtime) (key ciphertext : List Byte) :
    Except GoPanic (Option (List Byte) × String × Option GoError) := do
  let algorithm := AlgorithmUnknown
  let (plaintext, err) ← so.cryptoProvider.SymmetricDecryption rt key ciphertext
  match err with
  | some e => pure (none, algorithm, some e)
  | none => pure (plaintext, typeSwitch so.cryptoProvider algorithm, none)

end Servitor

/-! ## `task-tracker/storage.go` and `expense-tracker/storage.go` -/

/-- The value a Go `int` (64 bits, two's complement) holds after computing `x`:
arithmetic wraps around. -/
def wrapInt64 (x : Int) : Int :=
  (x + 9223372036854775808) % 18446744073709551616 - 9223372036854775808

/-- The largest Go `int`, `math.MaxInt64`. -/
def maxInt64 : Int := 9223372036854775807

namespace TaskTracker

/-- The type `Task`; a `time.Time` is kept as nanoseconds since the epoch. -/
structure Task where
  ID : Int
  Description : String
  Status : String
  CreatedAt : Int
  UpdatedAt : Int
  deriving DecidableEq, Repr

/-- The function `getNextId(tasks)` of `task-tracker/storage.go`. -/
def getNextId (tasks : List Task) : Int :=
  let maxId := tasks.foldl (fun maxId t => if t.ID > maxId then t.ID else maxId) 0
  wrapInt64 (maxId + 1)

end TaskTracker

namespace ExpenseTracker

/-- The type `Expense`; a `time.Time` is kept as nanoseconds since the epoch. -/
structure Expense where
  Id : Int
  Date : Int
  Description : String
  Amount : Int
  deriving DecidableEq, Repr

/-- The function `getNextId(tasks)` of `expense-tracker/storage.go`. -/
def getNextId (tasks : List Expense) : Int :=
  let maxId := tasks.foldl (fun maxId t => if t.Id > maxId then t.Id else maxId) 0
  wrapInt64 (maxId + 1)

end ExpenseTracker

namespace Servitor

/-! ## Values and properties the statements speak about -/

/-- The tag the facade is to report for a crypto provider, by its concrete type: "AES"
for `ServitorAlpha`, "Salsa20" for `ServitorBeta`, "Unknown" for any other
implementation. -/
def expectedTag : CryptoProvider → String
  | CryptoProvider.alpha _ => "AES"
  | CryptoProvider.beta _ => "Salsa20"
  | CryptoProvider.other _ => "Unknown"

/-- The property "the last `p` bytes of `data` all have the value `p`". -/
def lastBytesAll (data : List Byte) (p : Nat) : Prop :=
  ∀ x ∈ data.drop (data.length - p), x.val = p

/-- The IV a successful random source yields for `SymmetricEncryption` of Alpha. -/
def alphaIV (rs : RandSource) : List Byte := (List.range 16).map rs.bytes

/-- The padded plaintext Alpha encrypts. -/
def alphaPadded (plaintext : List Byte) : List Byte :=
  plaintext ++ List.replicate (16 - (plaintext.length : Int) % 16).toNat
    (byteOfInt (16 - (plaintext.length : Int) % 16))

/-- The nonce a successful random source yields for a nonce length `n`. -/
def betaNonce (rs : RandSource) (n : Nat) : List Byte := (List.range n).map rs.bytes

/-- The key stream bytes xored onto an input of length `n`. -/
def streamBytes (ks : KeyStream) (nonce key : List Byte) (n : Nat) : List Byte :=
  (List.range n).map (ks nonce key)

/-! ## Concrete instances used to evaluate the model -/

/-- A block cipher for concrete evaluation: every byte of the block is shifted by the
first byte of the key. -/
def shiftCipher : AES := fun key =>
  CipherBlock.mk (fun x => x.map (fun v => v + key.headD 0))
    (fun x => x.map (fun v => v - key.headD 0))
    (fun x h => by rw [List.length_map]; exact h)
    (fun x h => by rw [List.length_map]; exact h)

/-- A key stream for concrete evaluation: the byte at position `i` mixes the position
with the first bytes of the nonce and of the key. -/
def mixStream : KeyStream := fun nonce key i =>
  byteOfInt ((i : Int) * 7 + ((nonce.headD 0).val : Int) + ((key.headD 0).val : Int))

/-- A random source for concrete evaluation: it succeeds and delivers 3, 8, 13, ... -/
def countingSource : RandSource := RandSource.mk false (fun i => byteOfInt ((i : Int) * 5 + 3))

/-- The collaborators for concrete evaluation. -/
def sampleRuntime : Runtime := Runtime.mk shiftCipher mixStream countingSource (fun i => i * 31 + 7)

/-- The caller's memory `[]byte("hello0123456789abcdef")`: 21 bytes. -/
def aliasedMemory : List Byte :=
  [104, 101, 108, 108, 111, 48, 49, 50, 51, 52, 53, 54, 55, 56, 57, 97, 98, 99, 100, 101,
    102]

/-- The slice `data[:5]` of that memory, the plaintext `"hello"`: length 5, capacity 21. -/
def aliasedPlaintext : SliceRef := SliceRef.mk 0 5 21

/-- The slice `data[5:21]` of that memory, the key `"0123456789abcdef"`: 16 bytes right
behind the plaintext. -/
def aliasedKey : SliceRef := SliceRef.mk 5 16 16

/-- The 16-byte key `"0123456789abcdef"`. -/
def sampleKey16 : List Byte :=
  [48, 49, 50, 51, 52, 53, 54, 55, 56, 57, 97, 98, 99, 100, 101, 102]

/-- The 32-byte key `"thisIs32BitKey121234567812345678"` of the tests. -/
def sampleKey32 : List Byte :=
  [116, 104, 105, 115, 73, 115, 51, 50, 66, 105, 116, 75, 101, 121, 49, 50, 49, 50,
    51, 52, 53, 54, 55, 56, 49, 50, 51, 52, 53, 54, 55, 56]

/-- The 24-byte plaintext `"this is a secret message"` of the tests. -/
def sampleMessage : List Byte :=
  [116, 104, 105, 115, 32, 105, 115, 32, 97, 32, 115, 101, 99, 114, 101, 116, 32, 109,
    101, 115, 115, 97, 103, 101]

/-! ## Auxiliary facts about the primitives -/

theorem byteOfInt_intOfByte (x : Byte) : byteOfInt (intOfByte x) = x := by
  apply Fin.ext
  have hx := x.isLt
  simp only [byteOfInt, intOfByte]
  omega

theorem byteOfInt_val (n : Int) (h0 : 0 ≤ n) (h1 : n ≤ 255) :
    ((byteOfInt n).val : Int) = n := by
  simp only [byteOfInt]
  omega

theorem bytesRepeat_single (x : Byte) (n : Int) (h : 0 ≤ n) :
    bytesRepeat [x] n = Except.ok (List.replicate n.toNat x) := by
  have hn : ¬ n < 0 := by omega
  simp [bytesRepeat, hn, List.flatten_replicate_singleton, pure, Except.pure]

theorem goRem_pos (a b : Int) (ha : 0 ≤ a) (hb : 1 ≤ b) :
    goRem a b = Except.ok (a % b) := by
  have hb0 : b ≠ 0 := by omega
  simp [goRem, hb0, pure, Except.pure, Int.tmod_eq_emod ha (by omega : (0 : Int) ≤ b)]

theorem emod_bounds (a b : Int) (hb : 1 ≤ b) : 0 ≤ a % b ∧ a % b < b :=
  ⟨Int.emod_nonneg _ (by omega), Int.emod_lt_of_pos _ (by omega)⟩

/-- On a valid block size `addPKCS7Padding` returns the text followed by the padding. -/
theorem addPKCS7Padding_valid (text : List Byte) (b : Int) (h1 : 1 ≤ b) (h2 : b ≤ 255) :
    addPKCS7Padding text b
      = Except.ok (text ++ List.replicate (b - (text.length : Int) % b).toNat
          (byteOfInt (b - (text.length : Int) % b))) := by
  have hg : ¬ (b < 1 ∨ b > 255) := by omega
  have hb := emod_bounds (text.length : Int) b h1
  simp only [addPKCS7Padding, hg, if_false]
  rw [goRem_pos _ _ (by omega) h1]
  simp only [bind, Except.bind]
  rw [bytesRepeat_single _ _ (by omega)]
  rfl

/-- On a valid block size and a non-empty, block-aligned text whose last byte is `last`,
`removePKCS7Padding` is decided by the padding check alone. -/
theorem removePKCS7Padding_aligned (text : List Byte) (b : Int) (h1 : 1 ≤ b) (h2 : b ≤ 255)
    (last : Byte) (hlast : text.getLast? = some last) (hmod : (text.length : Int) % b = 0) :
    removePKCS7Padding text b
      = if last.val = 0 ∨ (last.val : Int) > b
            ∨ bytesHasSuffix text (List.replicate last.val last) = false then
          goErr ServitorError.invalidPadding
        else Except.ok (text.take (text.length - last.val)) := by
  have hg : ¬ (b < 1 ∨ b > 255) := by omega
  have hne : text.length ≠ 0 := by
    intro h
    rw [List.length_eq_zero] at h
    simp [h] at hlast
  have hidx : goIndex text ((text.length : Int) - 1) = Except.ok last := by
    have hi : ¬ ((text.length : Int) - 1 < 0) := by omega
    have ht : ((text.length : Int) - 1).toNat = text.length - 1 := by omega
    rw [List.getLast?_eq_getElem?] at hlast
    simp [goIndex, hi, ht, hlast, pure, Except.pure]
  simp only [removePKCS7Padding, hg, if_false, hne]
  rw [goRem_pos _ _ (by omega) h1, hmod]
  simp only [bind, Except.bind, ne_eq, not_true_eq_false, if_false]
  rw [hidx]
  simp only [byteOfInt_intOfByte]
  rw [bytesRepeat_single _ _ (by simp [intOfByte])]
  simp only [intOfByte, Int.toNat_ofNat]
  by_cases hc : last.val = 0 ∨ (last.val : Int) > b
      ∨ bytesHasSuffix text (List.replicate last.val last) = false
  · rw [if_pos hc]
    have hc2 : ((last.val : Int) = 0 ∨ (last.val : Int) > b
        ∨ (!bytesHasSuffix text (List.replicate last.val last)) = true) := by
      rcases hc with h | h | h
      · left; omega
      · right; left; exact h
      · right; right; simp [h]
    rw [if_pos hc2]
  · rw [if_neg hc]
    have hs : bytesHasSuffix text (List.replicate last.val last) = true := by
      by_contra hh
      exact hc (Or.inr (Or.inr (by simpa using hh)))
    have hc2 : ¬ ((last.val : Int) = 0 ∨ (last.val : Int) > b
        ∨ (!bytesHasSuffix text (List.replicate last.val last)) = true) := by
      intro h
      rcases h with h | h | h
      · exact hc (Or.inl (by omega))
      · exact hc (Or.inr (Or.inl h))
      · simp [hs] at h
    rw [if_neg hc2]
    have hle : last.val ≤ text.length := by
      simp only [bytesHasSuffix, List.length_replicate, Bool.and_eq_true,
        decide_eq_true_eq] at hs
      exact hs.1
    have hb : ¬ ((text.length : Int) - (last.val : Int) < 0
        ∨ (text.length : Int) - (last.val : Int) > (text.length : Int)) := by omega
    have ht : ((text.length : Int) - (last.val : Int)).toNat = text.length - last.val := by
      omega
    simp only [goSliceTo, hb, if_false, ht]
    rfl

theorem removePKCS7Padding_invalid (text : List Byte) (b : Int) (h : b < 1 ∨ b > 255) :
    removePKCS7Padding text b = goErr (ServitorError.invalidBlockSize b) := by
  simp only [removePKCS7Padding, h, if_true]

theorem addPKCS7Padding_invalid (text : List Byte) (b : Int) (h : b < 1 ∨ b > 255) :
    addPKCS7Padding text b = goErr (ServitorError.invalidBlockSize b) := by
  simp only [addPKCS7Padding, h, if_true]

theorem removePKCS7Padding_empty (b : Int) (h1 : 1 ≤ b) (h2 : b ≤ 255) :
    removePKCS7Padding [] b = goErr ServitorError.invalidPlaintext := by
  have hg : ¬ (b < 1 ∨ b > 255) := by omega
  simp only [removePKCS7Padding, hg, if_false, List.length_nil, if_true]

theorem removePKCS7Padding_unaligned (text : List Byte) (b : Int) (h1 : 1 ≤ b) (h2 : b ≤ 255)
    (hne : text ≠ []) (hmod : (text.length : Int) % b ≠ 0) :
    removePKCS7Padding text b = goErr ServitorError.invalidPlaintextLength := by
  have hg : ¬ (b < 1 ∨ b > 255) := by omega
  have hlen : text.length ≠ 0 := by
    intro h
    exact hne (List.length_eq_zero.mp h)
  simp only [removePKCS7Padding, hg, if_false, hlen]
  rw [goRem_pos _ _ (by omega) h1]
  simp only [bind, Except.bind, ne_eq, hmod, not_false_eq_true, if_true]

/-- The library check `bytes.HasSuffix` against a run of `p` equal bytes, in terms of the
elements of the text. -/
theorem bytesHasSuffix_replicate (text : List Byte) (p : Nat) (x : Byte) :
    bytesHasSuffix text (List.replicate p x) = true
      ↔ p ≤ text.length ∧ ∀ y ∈ text.drop (text.length - p), y = x := by
  simp only [bytesHasSuffix, List.length_replicate, Bool.and_eq_true, decide_eq_true_eq,
    beq_iff_eq, ge_iff_le]
  constructor
  · rintro ⟨hle, heq⟩
    refine ⟨hle, ?_⟩
    intro y hy
    rw [heq] at hy
    exact (List.mem_replicate.mp hy).2
  · rintro ⟨hle, hall⟩
    refine ⟨hle, ?_⟩
    rw [List.eq_replicate_iff]
    refine ⟨?_, hall⟩
    rw [List.length_drop]
    omega

theorem getLast?_append_replicate (data : List Byte) (n : Nat) (x : Byte) (hn : 1 ≤ n) :
    (data ++ List.replicate n x).getLast? = some x := by
  obtain ⟨m, rfl⟩ : ∃ m, n = m + 1 := ⟨n - 1, by omega⟩
  rw [List.replicate_succ', ← List.append_assoc, List.getLast?_append]
  simp

/-- The padded length is a multiple of the block size. -/
theorem padded_length_emod (len b : Int) : (len + (b - len % b)) % b = 0 := by
  have h := Int.emod_add_ediv len b
  have e : len + (b - len % b) = b * (len / b + 1) := by
    rw [mul_add, mul_one]
    omega
  rw [e]
  exact Int.mul_emod_right _ _

/-- Removing the padding from `data` followed by `n` bytes `x` of value `n`, `n` between 1
and the block size, returns `data`. -/
theorem removePKCS7Padding_append_replicate (data : List Byte) (b : Int) (h1 : 1 ≤ b)
    (h2 : b ≤ 255) (n : Nat) (x : Byte) (hx : x.val = n) (hn1 : 1 ≤ n) (hnb : (n : Int) ≤ b)
    (hmod : ((data.length : Int) + (n : Int)) % b = 0) :
    removePKCS7Padding (data ++ List.replicate n x) b = Except.ok data := by
  rw [removePKCS7Padding_aligned _ b h1 h2 x (getLast?_append_replicate data n x hn1)
    (by simpa using hmod)]
  have hs : bytesHasSuffix (data ++ List.replicate n x) (List.replicate x.val x) = true := by
    rw [bytesHasSuffix_replicate, hx]
    refine ⟨by simp, ?_⟩
    intro y hy
    have e : (data ++ List.replicate n x).length - n = data.length := by simp
    rw [e, List.drop_left] at hy
    exact (List.mem_replicate.mp hy).2
  have hc : ¬ (x.val = 0 ∨ (x.val : Int) > b
      ∨ bytesHasSuffix (data ++ List.replicate n x) (List.replicate x.val x) = false) := by
    rw [hs, hx]
    simp only [Bool.true_eq_false, or_false]
    omega
  rw [if_neg hc, hx]
  have e : (data ++ List.replicate n x).length - n = data.length := by simp
  rw [e, List.take_left]

/-- Adding and then removing the padding returns the data. -/
theorem addPKCS7Padding_removePKCS7Padding (data : List Byte) (b : Int) (h1 : 1 ≤ b)
    (h2 : b ≤ 255) :
    ∃ padded, addPKCS7Padding data b = Except.ok padded
      ∧ removePKCS7Padding padded b = Except.ok data := by
  have hb := emod_bounds (data.length : Int) b h1
  refine ⟨_, addPKCS7Padding_valid data b h1 h2, ?_⟩
  apply removePKCS7Padding_append_replicate data b h1 h2
  · have h := byteOfInt_val (b - (data.length : Int) % b) (by omega) (by omega)
    omega
  · omega
  · omega
  · have h := padded_length_emod (data.length : Int) b
    have e : (((b - (data.length : Int) % b).toNat : Nat) : Int)
        = b - (data.length : Int) % b := by omega
    rw [e]
    exact h

/-! ## Claims about the padding module -/

/-- C1 (padding identity): for every block size `b` with `1 ≤ b ≤ 255` and every byte
sequence `data`, `addPKCS7Padding data b` succeeds, and `removePKCS7Padding` of its result
with the same block size succeeds and returns exactly `data`. -/
theorem padding_identity (data : List Byte) (b : Int) (h1 : 1 ≤ b) (h2 : b ≤ 255) :
    ∃ padded, addPKCS7Padding data b = Except.ok padded
      ∧ removePKCS7Padding padded b = Except.ok data :=
  addPKCS7Padding_removePKCS7Padding data b h1 h2

theorem padding_identity_witness :
    ∃ padded, addPKCS7Padding [1, 2, 3, 4] 4 = Except.ok padded
      ∧ removePKCS7Padding padded 4 = Except.ok [1, 2, 3, 4] :=
  padding_identity [1, 2, 3, 4] 4 (by decide) (by decide)

/-- C5: for every block size `b` in `[1,255]` and every `data`, `addPKCS7Padding data b`
succeeds and returns `data` followed by exactly `padLen` bytes, each of value `padLen`,
where `padLen = b - (len(data) mod b)`; `padLen` lies in `[1,255]`, so the pad byte holds
it without wrap-around, and the first `len(data)` bytes of the result are `data`. -/
theorem addPKCS7Padding_spec (data : List Byte) (b : Int) (h1 : 1 ≤ b) (h2 : b ≤ 255) :
    ∃ (padLen : Nat) (padByte : Byte) (result : List Byte),
      (padLen : Int) = b - (data.length : Int) % b
      ∧ 1 ≤ padLen ∧ padLen ≤ 255
      ∧ padByte.val = padLen
      ∧ addPKCS7Padding data b = Except.ok result
      ∧ result = data ++ List.replicate padLen padByte
      ∧ result.take data.length = data
      ∧ result.length = data.length + padLen := by
  have hb := emod_bounds (data.length : Int) b h1
  have hv := byteOfInt_val (b - (data.length : Int) % b) (by omega) (by omega)
  refine ⟨(b - (data.length : Int) % b).toNat, byteOfInt (b - (data.length : Int) % b), _,
    by omega, by omega, by omega, by omega, addPKCS7Padding_valid data b h1 h2, rfl, ?_, ?_⟩
  · rw [List.take_left]
  · simp

theorem addPKCS7Padding_spec_witness :
    ∃ (padLen : Nat) (padByte : Byte) (result : List Byte),
      (padLen : Int) = 4 - (([1, 2, 3, 4, 5] : List Byte).length : Int) % 4
      ∧ 1 ≤ padLen ∧ padLen ≤ 255
      ∧ padByte.val = padLen
      ∧ addPKCS7Padding [1, 2, 3, 4, 5] 4 = Except.ok result
      ∧ result = [1, 2, 3, 4, 5] ++ List.replicate padLen padByte
      ∧ result.take ([1, 2, 3, 4, 5] : List Byte).length = [1, 2, 3, 4, 5]
      ∧ result.length = ([1, 2, 3, 4, 5] : List Byte).length + padLen :=
  addPKCS7Padding_spec [1, 2, 3, 4, 5] 4 (by decide) (by decide)

/-- C6: for a valid block size `b` and non-empty `data` whose length is a multiple of `b`,
with `p` the value of the last byte, `removePKCS7Padding data b` fails with the
invalid-padding error if and only if `p = 0` or `p > b` or the last `p` bytes are not all
equal to `p`; otherwise it succeeds and returns `data` with exactly its last `p` bytes
removed. -/
theorem removePKCS7Padding_spec (data : List Byte) (b : Int) (h1 : 1 ≤ b) (h2 : b ≤ 255)
    (hne : data ≠ []) (hmod : (data.length : Int) % b = 0) :
    (removePKCS7Padding data b = goErr ServitorError.invalidPadding
        ↔ ((data.getLast hne).val = 0 ∨ ((data.getLast hne).val : Int) > b
            ∨ ¬ lastBytesAll data (data.getLast hne).val))
      ∧ (¬ ((data.getLast hne).val = 0 ∨ ((data.getLast hne).val : Int) > b
            ∨ ¬ lastBytesAll data (data.getLast hne).val)
          → (data.getLast hne).val ≤ data.length
            ∧ removePKCS7Padding data b
              = Except.ok (data.take (data.length - (data.getLast hne).val))) := by
  have hlast : data.getLast? = some (data.getLast hne) := List.getLast?_eq_getLast data hne
  have hpos : 0 < data.length := List.length_pos.mpr hne
  have key := removePKCS7Padding_aligned data b h1 h2 _ hlast hmod
  -- the library suffix check against the property on the elements
  have hsuf : bytesHasSuffix data (List.replicate (data.getLast hne).val (data.getLast hne))
        = true
      ↔ ((data.getLast hne).val ≤ data.length
          ∧ lastBytesAll data (data.getLast hne).val) := by
    rw [bytesHasSuffix_replicate]
    constructor
    · rintro ⟨hle, hall⟩
      exact ⟨hle, fun x hx => by rw [hall x hx]⟩
    · rintro ⟨hle, hall⟩
      exact ⟨hle, fun x hx => Fin.ext (hall x hx)⟩
  have hcond : ((data.getLast hne).val = 0 ∨ ((data.getLast hne).val : Int) > b
        ∨ bytesHasSuffix data (List.replicate (data.getLast hne).val (data.getLast hne))
            = false)
      ↔ ((data.getLast hne).val = 0 ∨ ((data.getLast hne).val : Int) > b
            ∨ ¬ lastBytesAll data (data.getLast hne).val) := by
    have hbl : (b : Int) ≤ (data.length : Int) := by
      have hd : b ∣ (data.length : Int) := Int.dvd_of_emod_eq_zero hmod
      exact Int.le_of_dvd (by omega) hd
    constructor
    · rintro (h | h | h)
      · exact Or.inl h
      · exact Or.inr (Or.inl h)
      · by_cases hgt : ((data.getLast hne).val : Int) > b
        · exact Or.inr (Or.inl hgt)
        · refine Or.inr (Or.inr ?_)
          intro hall
          have : bytesHasSuffix data
              (List.replicate (data.getLast hne).val (data.getLast hne)) = true :=
            hsuf.mpr ⟨by omega, hall⟩
          rw [this] at h
          exact Bool.noConfusion h
    · rintro (h | h | h)
      · exact Or.inl h
      · exact Or.inr (Or.inl h)
      · refine Or.inr (Or.inr ?_)
        by_contra hh
        have ht : bytesHasSuffix data
            (List.replicate (data.getLast hne).val (data.getLast hne)) = true := by
          simpa using hh
        exact h (hsuf.mp ht).2
  constructor
  · constructor
    · intro hfail
      by_contra hc
      rw [if_neg (fun h => hc (hcond.mp h))] at key
      rw [key] at hfail
      exact Except.noConfusion hfail
    · intro hc
      rw [if_pos (hcond.mpr hc)] at key
      exact key
  · intro hc
    rw [if_neg (fun h => hc (hcond.mp h))] at key
    refine ⟨?_, key⟩
    have ht : bytesHasSuffix data
        (List.replicate (data.getLast hne).val (data.getLast hne)) = true := by
      by_contra hh
      exact hc (hcond.mp (Or.inr (Or.inr (by simpa using hh))))
    exact (hsuf.mp ht).1

theorem removePKCS7Padding_spec_witness :
    (removePKCS7Padding [7, 8, 2, 2] 4 = goErr ServitorError.invalidPadding
        ↔ ((([7, 8, 2, 2] : List Byte).getLast (by decide)).val = 0
            ∨ ((([7, 8, 2, 2] : List Byte).getLast (by decide)).val : Int) > 4
            ∨ ¬ lastBytesAll [7, 8, 2, 2] (([7, 8, 2, 2] : List Byte).getLast (by decide)).val))
      ∧ (¬ ((([7, 8, 2, 2] : List Byte).getLast (by decide)).val = 0
            ∨ ((([7, 8, 2, 2] : List Byte).getLast (by decide)).val : Int) > 4
            ∨ ¬ lastBytesAll [7, 8, 2, 2] (([7, 8, 2, 2] : List Byte).getLast (by decide)).val)
          → (([7, 8, 2, 2] : List Byte).getLast (by decide)).val
              ≤ ([7, 8, 2, 2] : List Byte).length
            ∧ removePKCS7Padding [7, 8, 2, 2] 4
              = Except.ok (([7, 8, 2, 2] : List Byte).take (([7, 8, 2, 2] : List Byte).length
                  - (([7, 8, 2, 2] : List Byte).getLast (by decide)).val))) :=
  removePKCS7Padding_spec [7, 8, 2, 2] 4 (by decide) (by decide) (by decide) (by decide)

/-- C7: `addPKCS7Padding` and `removePKCS7Padding` each fail with the invalid-block-size
error, for every `data`, exactly when `blockSize < 1` or `blockSize > 255` (the error then
carries that block size); in `removePKCS7Padding` this check comes before the length and
padding checks, so empty data with block size 0 reports the invalid block size. -/
theorem invalidBlockSize_iff (data : List Byte) (blockSize : Int) :
    ((∃ n, addPKCS7Padding data blockSize = goErr (ServitorError.invalidBlockSize n))
        ↔ (blockSize < 1 ∨ blockSize > 255))
      ∧ ((∃ n, removePKCS7Padding data blockSize = goErr (ServitorError.invalidBlockSize n))
        ↔ (blockSize < 1 ∨ blockSize > 255))
      ∧ ((blockSize < 1 ∨ blockSize > 255) →
          addPKCS7Padding data blockSize = goErr (ServitorError.invalidBlockSize blockSize)
          ∧ removePKCS7Padding data blockSize
              = goErr (ServitorError.invalidBlockSize blockSize))
      ∧ removePKCS7Padding [] 0 = goErr (ServitorError.invalidBlockSize 0) := by
  refine ⟨⟨?_, fun h => ⟨_, addPKCS7Padding_invalid data blockSize h⟩⟩,
    ⟨?_, fun h => ⟨_, removePKCS7Padding_invalid data blockSize h⟩⟩,
    fun h => ⟨addPKCS7Padding_invalid data blockSize h,
      removePKCS7Padding_invalid data blockSize h⟩,
    removePKCS7Padding_invalid [] 0 (by decide)⟩
  · rintro ⟨n, hn⟩
    by_contra hc
    rw [addPKCS7Padding_valid data blockSize (by omega) (by omega)] at hn
    exact Except.noConfusion hn
  · rintro ⟨n, hn⟩
    by_contra hc
    have h1 : 1 ≤ blockSize := by omega
    have h2 : blockSize ≤ 255 := by omega
    by_cases hne : data = []
    · subst hne
      rw [removePKCS7Padding_empty blockSize h1 h2] at hn
      simp [goErr] at hn
    · by_cases hmod : (data.length : Int) % blockSize = 0
      · rw [removePKCS7Padding_aligned data blockSize h1 h2 _
          (List.getLast?_eq_getLast data hne) hmod] at hn
        split at hn
        · simp [goErr] at hn
        · exact Except.noConfusion hn
      · rw [removePKCS7Padding_unaligned data blockSize h1 h2 hne hmod] at hn
        simp [goErr] at hn

/-- C8: for every block size `b` in `[1,255]`, `removePKCS7Padding data b` fails with a
plaintext-length error whenever `data` is empty (message "invalid plaintext") or its
length is not a multiple of `b` (message "invalid plaintext length"), whatever the bytes
of `data` are. -/
theorem removePKCS7Padding_length_error (data : List Byte) (b : Int) (h1 : 1 ≤ b)
    (h2 : b ≤ 255) (hlen : data = [] ∨ (data.length : Int) % b ≠ 0) :
    (data = [] → removePKCS7Padding data b = goErr ServitorError.invalidPlaintext)
      ∧ (data ≠ [] → removePKCS7Padding data b = goErr ServitorError.invalidPlaintextLength)
      ∧ (removePKCS7Padding data b = goErr ServitorError.invalidPlaintext
          ∨ removePKCS7Padding data b = goErr ServitorError.invalidPlaintextLength) := by
  by_cases hne : data = []
  · subst hne
    have h := removePKCS7Padding_empty b h1 h2
    exact ⟨fun _ => h, fun hc => absurd rfl hc, Or.inl h⟩
  · have hmod : (data.length : Int) % b ≠ 0 := by
      rcases hlen with h | h
      · exact absurd h hne
      · exact h
    have h := removePKCS7Padding_unaligned data b h1 h2 hne hmod
    exact ⟨fun hc => absurd hc hne, fun _ => h, Or.inr h⟩

theorem removePKCS7Padding_length_error_witness :
    (([9, 9, 9] : List Byte) = [] →
        removePKCS7Padding [9, 9, 9] 2 = goErr ServitorError.invalidPlaintext)
      ∧ (([9, 9, 9] : List Byte) ≠ [] →
        removePKCS7Padding [9, 9, 9] 2 = goErr ServitorError.invalidPlaintextLength)
      ∧ (removePKCS7Padding [9, 9, 9] 2 = goErr ServitorError.invalidPlaintext
          ∨ removePKCS7Padding [9, 9, 9] 2 = goErr ServitorError.invalidPlaintextLength) :=
  removePKCS7Padding_length_error [9, 9, 9] 2 (by decide) (by decide) (Or.inr (by decide))

/-- C9 (tamper rejection): for every block size `b` in `[1,255]` and every `data`, when
the final byte of `addPKCS7Padding data b` is replaced by 0 or by a byte greater than `b`,
`removePKCS7Padding` of the tampered sequence fails with the invalid-padding error. -/
theorem tamper_rejection (data : List Byte) (b : Int) (h1 : 1 ≤ b) (h2 : b ≤ 255)
    (v : Byte) (hv : v.val = 0 ∨ (v.val : Int) > b) :
    ∃ padded, addPKCS7Padding data b = Except.ok padded
      ∧ removePKCS7Padding (padded.dropLast ++ [v]) b
          = goErr ServitorError.invalidPadding := by
  have hb := emod_bounds (data.length : Int) b h1
  refine ⟨_, addPKCS7Padding_valid data b h1 h2, ?_⟩
  have hlen : ((data ++ List.replicate (b - (data.length : Int) % b).toNat
      (byteOfInt (b - (data.length : Int) % b))).dropLast ++ [v]).length
      = data.length + (b - (data.length : Int) % b).toNat := by
    simp only [List.length_append, List.length_dropLast, List.length_replicate,
      List.length_singleton]
    omega
  have hmod : ((((data ++ List.replicate (b - (data.length : Int) % b).toNat
      (byteOfInt (b - (data.length : Int) % b))).dropLast ++ [v]).length : Nat) : Int) % b
      = 0 := by
    rw [hlen]
    have h := padded_length_emod (data.length : Int) b
    have e : ((data.length + (b - (data.length : Int) % b).toNat : Nat) : Int)
        = (data.length : Int) + (b - (data.length : Int) % b) := by omega
    rw [e]
    exact h
  rw [removePKCS7Padding_aligned _ b h1 h2 v (by simp) hmod]
  have hc : v.val = 0 ∨ (v.val : Int) > b
      ∨ bytesHasSuffix ((data ++ List.replicate (b - (data.length : Int) % b).toNat
          (byteOfInt (b - (data.length : Int) % b))).dropLast ++ [v])
          (List.replicate v.val v) = false := by
    rcases hv with h | h
    · exact Or.inl h
    · exact Or.inr (Or.inl h)
  rw [if_pos hc]

theorem tamper_rejection_witness :
    ∃ padded, addPKCS7Padding [1, 2, 3] 4 = Except.ok padded
      ∧ removePKCS7Padding (padded.dropLast ++ [5]) 4
          = goErr ServitorError.invalidPadding :=
  tamper_rejection [1, 2, 3] 4 (by decide) (by decide) 5 (Or.inr (by decide))

/-! ## Auxiliary facts about CBC mode and the key stream -/

theorem xorByte_cancel (a k : Byte) : xorByte (xorByte a k) k = a := by
  apply Fin.ext
  have ha := a.isLt
  have hk := k.isLt
  have hlt : a.val ^^^ k.val < 2 ^ 8 := Nat.xor_lt_two_pow (by omega) (by omega)
  simp only [xorByte]
  rw [Nat.mod_eq_of_lt (by omega : a.val ^^^ k.val < 256), Nat.xor_assoc, Nat.xor_self,
    Nat.xor_zero, Nat.mod_eq_of_lt ha]

theorem xorBytes_length (x y : List Byte) :
    (xorBytes x y).length = min x.length y.length := by
  simp [xorBytes]

theorem xorBytes_cancel (x y : List Byte) (h : x.length ≤ y.length) :
    xorBytes (xorBytes x y) y = x := by
  induction x generalizing y with
  | nil => simp [xorBytes]
  | cons a x ih =>
    cases y with
    | nil => simp at h
    | cons k y =>
      simp only [List.length_cons, Nat.add_le_add_iff_right] at h
      have := ih y h
      simp only [xorBytes, List.zipWith_cons_cons, xorByte_cancel, List.cons.injEq,
        true_and] at this ⊢
      exact this

theorem cbcEncryptLoop_length (b : CipherBlock) (n : Nat) (iv src : List Byte)
    (hiv : iv.length = 16) (hsrc : src.length = 16 * n) :
    (cbcEncryptLoop b n iv src).length = 16 * n := by
  induction n generalizing iv src with
  | zero => simp [cbcEncryptLoop]
  | succ n ih =>
    have hx : (xorBytes (src.take 16) iv).length = 16 := by
      rw [xorBytes_length, List.length_take]
      omega
    have hc := b.encrypt_length _ hx
    simp only [cbcEncryptLoop, List.length_append]
    rw [hc, ih _ _ hc (by rw [List.length_drop]; omega)]
    omega

/-- CBC decryption inverts CBC encryption under the same block cipher and IV, when the
block cipher's decryption inverts its encryption. -/
theorem cbcDecryptLoop_cbcEncryptLoop (b : CipherBlock) (hinv : b.Inverts) (n : Nat)
    (iv src : List Byte) (hiv : iv.length = 16) (hsrc : src.length = 16 * n) :
    cbcDecryptLoop b n iv (cbcEncryptLoop b n iv src) = src := by
  induction n generalizing iv src with
  | zero =>
    have : src = [] := List.length_eq_zero.mp (by omega)
    simp [cbcDecryptLoop, this]
  | succ n ih =>
    have ht : (src.take 16).length = 16 := by
      rw [List.length_take]
      omega
    have hx : (xorBytes (src.take 16) iv).length = 16 := by
      rw [xorBytes_length, ht, hiv]
      rfl
    have hc := b.encrypt_length _ hx
    simp only [cbcEncryptLoop, cbcDecryptLoop]
    rw [List.take_left' hc, List.drop_left' hc, hinv _ hx,
      xorBytes_cancel _ _ (by omega), ih _ _ hc (by rw [List.length_drop]; omega),
      List.take_append_drop]

theorem randRead_ok (rs : RandSource) (hrs : rs.fails = false) (buf : List Byte) :
    randRead rs buf = Except.ok ((List.range buf.length).map rs.bytes) := by
  simp [randRead, hrs, pure, Except.pure]

theorem goMake_ok (n : Nat) :
    goMake (n : Int) = Except.ok (List.replicate n (0 : Byte)) := by
  have h : ¬ ((n : Int) < 0) := by omega
  simp [goMake, h, pure, Except.pure]

theorem validKeyLength_iff (key : List Byte) :
    aesValidKeyLengths.any (fun length => decide ((key.length : Int) = length)) = true
      ↔ (key.length = 16 ∨ key.length = 24 ∨ key.length = 32) := by
  simp only [aesValidKeyLengths, List.any_cons, List.any_nil, Bool.or_false, Bool.or_eq_true,
    decide_eq_true_eq]
  omega

theorem alphaPadded_length (plaintext : List Byte) :
    (alphaPadded plaintext).length = 16 * ((alphaPadded plaintext).length / 16) := by
  simp only [alphaPadded, List.length_append, List.length_replicate]
  omega

/-- With a working random source and a valid key, Alpha's encryption returns the IV
followed by the CBC encryption of the padded plaintext. -/
theorem alpha_encryption_valid (sa : ServitorAlpha) (aes : AES) (rs : RandSource)
    (hrs : rs.fails = false) (key plaintext : List Byte)
    (hkey : key.length = 16 ∨ key.length = 24 ∨ key.length = 32) :
    sa.SymmetricEncryption aes rs key plaintext
      = Except.ok (alphaIV rs ++ cbcEncryptLoop (aes key) ((alphaPadded plaintext).length / 16)
          (alphaIV rs) (alphaPadded plaintext)) := by
  have hv := (validKeyLength_iff key).mpr hkey
  have hmk : goMake 16 = Except.ok (List.replicate 16 (0 : Byte)) := goMake_ok 16
  have hpad : addPKCS7Padding plaintext 16 = Except.ok (alphaPadded plaintext) :=
    addPKCS7Padding_valid plaintext 16 (by decide) (by decide)
  have hlen := alphaPadded_length plaintext
  have hmod : (alphaPadded plaintext).length % 16 = 0 := by omega
  simp only [ServitorAlpha.SymmetricEncryption, aesBlockSize, hmk, bind, Except.bind,
    randRead_ok rs hrs, List.length_replicate, hv, Bool.not_true, Bool.false_eq_true,
    if_false, aesNewCipher, hkey, if_true, pure, Except.pure, newCBC, List.length_map,
    List.length_range, hpad, goMake_ok, CBCMode.encryptBlocks, hmod]
  simp [alphaIV]

theorem goSlice_split (iv body : List Byte) (n : Nat) (hiv : iv.length = n) :
    goSliceTo (iv ++ body) (n : Int) = Except.ok iv
      ∧ goSliceFrom (iv ++ body) (n : Int) = Except.ok body := by
  have hb : ¬ ((n : Int) < 0 ∨ (n : Int) > ((iv ++ body).length : Int)) := by
    rw [List.length_append]
    omega
  simp only [goSliceTo, goSliceFrom, hb, if_false, Int.toNat_ofNat, pure, Except.pure]
  rw [List.take_left' hiv, List.drop_left' hiv]
  exact ⟨rfl, rfl⟩

theorem alphaIV_length (rs : RandSource) : (alphaIV rs).length = 16 := by
  simp [alphaIV]

/-- With a valid key whose block cipher inverts, Alpha's decryption of an IV followed by
the CBC encryption of a padded plaintext returns the plaintext. -/
theorem alpha_decryption_of_encryption (sa : ServitorAlpha) (aes : AES)
    (key plaintext iv : List Byte) (hiv : iv.length = 16)
    (hkey : key.length = 16 ∨ key.length = 24 ∨ key.length = 32)
    (hinv : (aes key).Inverts) :
    sa.SymmetricDecryption aes key
        (iv ++ cbcEncryptLoop (aes key) ((alphaPadded plaintext).length / 16) iv
          (alphaPadded plaintext))
      = Except.ok plaintext := by
  have hlen := alphaPadded_length plaintext
  have hbody := cbcEncryptLoop_length (aes key) _ iv (alphaPadded plaintext) hiv hlen
  have hsplit := goSlice_split iv (cbcEncryptLoop (aes key)
    ((alphaPadded plaintext).length / 16) iv (alphaPadded plaintext)) 16 hiv
  have hmod : (cbcEncryptLoop (aes key) ((alphaPadded plaintext).length / 16) iv
      (alphaPadded plaintext)).length % 16 = 0 := by omega
  have hdiv : (cbcEncryptLoop (aes key) ((alphaPadded plaintext).length / 16) iv
      (alphaPadded plaintext)).length / 16 = (alphaPadded plaintext).length / 16 := by omega
  have hrt := cbcDecryptLoop_cbcEncryptLoop (aes key) hinv _ iv (alphaPadded plaintext) hiv hlen
  obtain ⟨padded, hadd, hrem⟩ :=
    addPKCS7Padding_removePKCS7Padding plaintext 16 (by decide) (by decide)
  have hpad : padded = alphaPadded plaintext := by
    rw [addPKCS7Padding_valid plaintext 16 (by decide) (by decide)] at hadd
    exact (Except.ok.inj hadd).symm
  rw [hpad] at hrem
  have h16 : ((16 : Nat) : Int) = 16 := rfl
  rw [h16] at hsplit
  simp only [ServitorAlpha.SymmetricDecryption, aesBlockSize, hsplit.1, hsplit.2, bind,
    Except.bind, aesNewCipher, hkey, if_true, pure, Except.pure, newCBC, hiv, goMake_ok,
    CBCMode.decryptBlocks, hmod, hdiv, List.length_replicate, Nat.cast_ofNat, ne_eq,
    not_true_eq_false, if_false, lt_self_iff_false, hrt]
  simpa using hrem

theorem shiftCipher_inverts (key : List Byte) : (shiftCipher key).Inverts := by
  intro x _
  have hid : ((fun v : Byte => v - key.headD 0) ∘ fun v : Byte => v + key.headD 0) = id := by
    funext v
    simp
  simp only [shiftCipher, List.map_map, hid, List.map_id]

/-! ## Claims about the Alpha provider -/

/-- Under the bytes the key holds when the cipher is built, Alpha's decryption of the
output of its encryption returns the plaintext, provided the block cipher's decryption
inverts its encryption under that key. -/
theorem alpha_decryption_under_encryption_key (sa : ServitorAlpha) (aes : AES)
    (rs : RandSource) (key plaintext : List Byte) (hrs : rs.fails = false)
    (hkey : key.length = 16 ∨ key.length = 24 ∨ key.length = 32)
    (hinv : (aes key).Inverts) :
    ∃ ciphertext, sa.SymmetricEncryption aes rs key plaintext = Except.ok ciphertext
      ∧ sa.SymmetricDecryption aes key ciphertext = Except.ok plaintext :=
  ⟨_, alpha_encryption_valid sa aes rs hrs key plaintext hkey,
    alpha_decryption_of_encryption sa aes key plaintext (alphaIV rs) (alphaIV_length rs)
      hkey hinv⟩

theorem SliceRef.read_length (s : SliceRef) (mem : List Byte)
    (h : s.off + s.len ≤ mem.length) : (s.read mem).length = s.len := by
  simp only [SliceRef.read, List.length_take, List.length_drop]
  omega

/-- The bytes `addPKCS7PaddingInPlace` returns are those of `addPKCS7Padding` on the bytes
of the slice. -/
theorem addPKCS7PaddingInPlace_bytes (mem : List Byte) (text : SliceRef) (b : Int)
    (h : text.off + text.len ≤ mem.length) :
    Prod.fst <$> addPKCS7PaddingInPlace mem text b = addPKCS7Padding (text.read mem) b := by
  have hl := SliceRef.read_length text mem h
  by_cases hb : b < 1 ∨ b > 255
  · simp only [addPKCS7PaddingInPlace, addPKCS7Padding, hb, if_true]
    rfl
  · have h1 : 1 ≤ b := by omega
    have hm := emod_bounds (text.len : Int) b h1
    simp only [addPKCS7PaddingInPlace, addPKCS7Padding, hb, if_false, hl]
    rw [goRem_pos _ _ (by omega) h1]
    simp only [bind, Except.bind]
    rw [bytesRepeat_single _ _ (by omega)]
    simp only [goAppend, pure, Except.pure, Functor.map, Except.map]
    split <;> rfl

/-- With a working random source, a valid key length and slices inside the memory,
`SymmetricEncryptionInPlace` returns the bytes of `SymmetricEncryption` on the bytes of
the key and of the plaintext, and leaves the memory as `append` of the padding behind the
plaintext leaves it. -/
theorem alpha_encryption_in_place_valid (sa : ServitorAlpha) (aes : AES) (rs : RandSource)
    (mem : List Byte) (key plaintext : SliceRef) (hrs : rs.fails = false)
    (hkey : key.len = 16 ∨ key.len = 24 ∨ key.len = 32)
    (hk : key.off + key.len ≤ mem.length)
    (hp : plaintext.off + plaintext.len ≤ mem.length) :
    ∃ ciphertext,
      sa.SymmetricEncryption aes rs (key.read mem) (plaintext.read mem) = Except.ok ciphertext
      ∧ sa.SymmetricEncryptionInPlace aes rs mem key plaintext
        = Except.ok (ciphertext,
            (goAppend mem plaintext (List.replicate (16 - (plaintext.len : Int) % 16).toNat
              (byteOfInt (16 - (plaintext.len : Int) % 16)))).2) := by
  have hkl := SliceRef.read_length key mem hk
  have hpl := SliceRef.read_length plaintext mem hp
  have hkey2 : (key.read mem).length = 16 ∨ (key.read mem).length = 24
      ∨ (key.read mem).length = 32 := by
    rw [hkl]
    exact hkey
  refine ⟨_, alpha_encryption_valid sa aes rs hrs _ _ hkey2, ?_⟩
  have hv : aesValidKeyLengths.any (fun length => decide ((key.len : Int) = length))
      = true := by
    have := (validKeyLength_iff (key.read mem)).mpr hkey2
    rw [hkl] at this
    exact this
  have hmk : goMake 16 = Except.ok (List.replicate 16 (0 : Byte)) := goMake_ok 16
  have hb := emod_bounds (plaintext.len : Int) 16 (by decide)
  have hg : ¬ ((16 : Int) < 1 ∨ (16 : Int) > 255) := by decide
  have hlen := alphaPadded_length (plaintext.read mem)
  have hmod : (alphaPadded (plaintext.read mem)).length % 16 = 0 := by omega
  have hpad : (plaintext.read mem ++ List.replicate (16 - (plaintext.len : Int) % 16).toNat
      (byteOfInt (16 - (plaintext.len : Int) % 16))) = alphaPadded (plaintext.read mem) := by
    simp only [alphaPadded, hpl]
  have hfst : (goAppend mem plaintext (List.replicate (16 - (plaintext.len : Int) % 16).toNat
      (byteOfInt (16 - (plaintext.len : Int) % 16)))).1 = alphaPadded (plaintext.read mem) := by
    simp only [goAppend]
    split <;> exact hpad
  have hin : addPKCS7PaddingInPlace mem plaintext 16
      = Except.ok (alphaPadded (plaintext.read mem),
          (goAppend mem plaintext (List.replicate (16 - (plaintext.len : Int) % 16).toNat
            (byteOfInt (16 - (plaintext.len : Int) % 16)))).2) := by
    simp only [addPKCS7PaddingInPlace, hg, if_false]
    rw [goRem_pos _ _ (by omega) (by decide)]
    simp only [bind, Except.bind]
    rw [bytesRepeat_single _ _ (by omega)]
    simp only [pure, Except.pure]
    rw [← hfst]
  simp only [ServitorAlpha.SymmetricEncryptionInPlace, aesBlockSize, hmk, bind, Except.bind,
    randRead_ok rs hrs, List.length_replicate, hv, Bool.not_true, Bool.false_eq_true,
    if_false, aesNewCipher, hkey2, if_true, pure, Except.pure, newCBC, List.length_map,
    List.length_range, Nat.cast_ofNat, ne_eq, not_true_eq_false, hin, goMake_ok,
    CBCMode.encryptBlocks, hmod]
  simp [alphaIV]

/-- When the spare capacity of the plaintext holds the padding, the memory after
`SymmetricEncryptionInPlace` has the padding stored right behind the plaintext. -/
theorem goAppend_in_place (mem : List Byte) (text : SliceRef) (extra : List Byte)
    (h : text.len + extra.length ≤ text.cap) :
    (goAppend mem text extra).2 = memWrite mem (text.off + text.len) extra := by
  simp only [goAppend, h, if_true]

/-- C2 (Alpha round trip) does not hold on the code.  With the caller's memory
`data = []byte("hello0123456789abcdef")`, `plaintext = data[:5]` and `key = data[5:21]`,
`SymmetricEncryption(key, plaintext)` succeeds, and its ciphertext decrypts to the
plaintext under the bytes the key held; but `append(text, padding...)` in
`addPKCS7Padding` has stored the eleven pad bytes behind the plaintext, over the first
eleven bytes of the key, so `SymmetricDecryption(key, ciphertext)` runs under another
key and (for the block cipher of this evaluation) fails with the invalid-padding error
instead of returning the plaintext. -/
theorem alpha_round_trip_aliased_key_fails :
    ∃ ciphertext memAfter,
      NewServitorAlpha.SymmetricEncryptionInPlace shiftCipher countingSource aliasedMemory
          aliasedKey aliasedPlaintext = Except.ok (ciphertext, memAfter)
        ∧ aliasedPlaintext.read memAfter = aliasedPlaintext.read aliasedMemory
        ∧ aliasedKey.read aliasedMemory
            = [48, 49, 50, 51, 52, 53, 54, 55, 56, 57, 97, 98, 99, 100, 101, 102]
        ∧ aliasedKey.read memAfter
            = [11, 11, 11, 11, 11, 11, 11, 11, 11, 11, 11, 98, 99, 100, 101, 102]
        ∧ NewServitorAlpha.SymmetricDecryption shiftCipher (aliasedKey.read aliasedMemory)
            ciphertext = Except.ok (aliasedPlaintext.read aliasedMemory)
        ∧ NewServitorAlpha.SymmetricDecryption shiftCipher (aliasedKey.read memAfter)
            ciphertext = goErr ServitorError.invalidPadding
        ∧ NewServitorAlpha.SymmetricDecryption shiftCipher (aliasedKey.read memAfter)
            ciphertext ≠ Except.ok (aliasedPlaintext.read memAfter) := by
  refine ⟨[3, 8, 13, 18, 23, 28, 33, 38, 43, 48, 53, 58, 63, 68, 73, 78, 155, 157, 145, 174,
      168, 71, 90, 93, 80, 107, 110, 97, 100, 127, 114, 117],
    [104, 101, 108, 108, 111, 11, 11, 11, 11, 11, 11, 11, 11, 11, 11, 11, 98, 99, 100, 101,
      102], ?_⟩
  decide

/-- C10: when the random source succeeds, Alpha's `SymmetricEncryption` fails if and only
if the key length is not one of 16, 24, 32, for every plaintext; when it fails, the
failure is the invalid-key-length error (carrying the key length) and no bytes are
returned. -/
theorem alpha_encryption_fails_iff (sa : ServitorAlpha) (aes : AES) (rs : RandSource)
    (key plaintext : List Byte) (hrs : rs.fails = false) :
    ((∃ f, sa.SymmetricEncryption aes rs key plaintext = Except.error f)
        ↔ ¬ (key.length = 16 ∨ key.length = 24 ∨ key.length = 32))
      ∧ (∀ f, sa.SymmetricEncryption aes rs key plaintext = Except.error f →
          f = Failure.error (ServitorError.invalidKeyLengthAlpha (key.length : Int))) := by
  by_cases hkey : key.length = 16 ∨ key.length = 24 ∨ key.length = 32
  · have h := alpha_encryption_valid sa aes rs hrs key plaintext hkey
    refine ⟨⟨?_, fun hc => absurd hkey hc⟩, ?_⟩
    · rintro ⟨f, hf⟩
      rw [h] at hf
      exact Except.noConfusion hf
    · intro f hf
      rw [h] at hf
      exact Except.noConfusion hf
  · have hv : aesValidKeyLengths.any (fun length => decide ((key.length : Int) = length))
        = false := by
      cases h : aesValidKeyLengths.any (fun length => decide ((key.length : Int) = length)) with
      | false => rfl
      | true => exact absurd ((validKeyLength_iff key).mp h) hkey
    have hmk : goMake 16 = Except.ok (List.replicate 16 (0 : Byte)) := goMake_ok 16
    have h : sa.SymmetricEncryption aes rs key plaintext
        = Except.error (Failure.error (ServitorError.invalidKeyLengthAlpha (key.length : Int))) := by
      simp only [ServitorAlpha.SymmetricEncryption, aesBlockSize, hmk, bind, Except.bind,
        randRead_ok rs hrs, hv, Bool.not_false, if_true, goErr]
    refine ⟨⟨fun _ => hkey, fun _ => ⟨_, h⟩⟩, ?_⟩
    intro f hf
    rw [h] at hf
    exact (Except.error.inj hf).symm

theorem alpha_encryption_fails_iff_witness :
    ((∃ f, NewServitorAlpha.SymmetricEncryption shiftCipher countingSource
          (sampleKey16 ++ [0]) sampleMessage = Except.error f)
        ↔ ¬ ((sampleKey16 ++ [0]).length = 16 ∨ (sampleKey16 ++ [0]).length = 24
              ∨ (sampleKey16 ++ [0]).length = 32))
      ∧ (∀ f, NewServitorAlpha.SymmetricEncryption shiftCipher countingSource
          (sampleKey16 ++ [0]) sampleMessage = Except.error f →
          f = Failure.error
            (ServitorError.invalidKeyLengthAlpha ((sampleKey16 ++ [0]).length : Int))) :=
  alpha_encryption_fails_iff NewServitorAlpha shiftCipher countingSource (sampleKey16 ++ [0])
    sampleMessage rfl

/-! ## Auxiliary facts about the Beta provider -/

theorem betaNonce_length (rs : RandSource) (n : Nat) : (betaNonce rs n).length = n := by
  simp [betaNonce]

theorem streamBytes_length (ks : KeyStream) (nonce key : List Byte) (n : Nat) :
    (streamBytes ks nonce key n).length = n := by
  simp [streamBytes]

theorem goCopy_key (key : List Byte) (hkey : key.length = 32) :
    goCopy (List.replicate 32 (0 : Byte)) key = key := by
  simp [goCopy, ← hkey]

theorem salsa20XORKeyStream_ok (ks : KeyStream) (inp nonce key : List Byte)
    (hn : nonce.length = 24 ∨ nonce.length = 8) :
    salsa20XORKeyStream ks (List.replicate inp.length (0 : Byte)) inp nonce key
      = Except.ok (xorBytes inp (streamBytes ks nonce key inp.length)) := by
  simp [salsa20XORKeyStream, hn, streamBytes, pure, Except.pure]

/-- With a working random source, a nonce length of 8 or 24 and a 32-byte key, Beta's
encryption returns the nonce followed by the plaintext xored with the key stream. -/
theorem beta_encryption_valid (sb : ServitorBeta) (ks : KeyStream) (rs : RandSource)
    (key plaintext : List Byte) (n : Nat) (hsb : sb.Salsa20NonceLength = (n : Int))
    (hn : n = 24 ∨ n = 8) (hrs : rs.fails = false) (hkey : key.length = 32) :
    sb.SymmetricEncryption ks rs key plaintext
      = Except.ok (betaNonce rs n
          ++ xorBytes plaintext (streamBytes ks (betaNonce rs n) key plaintext.length)) := by
  have hk : ¬ ((key.length : Int) ≠ 32) := by omega
  have hnl : (betaNonce rs n).length = 24 ∨ (betaNonce rs n).length = 8 := by
    rw [betaNonce_length]
    exact hn
  simp only [ServitorBeta.SymmetricEncryption, hsb, goMake_ok, bind, Except.bind,
    randRead_ok rs hrs, List.length_replicate, defaultSalsa20KeyLength, hk, if_false,
    goCopy_key key hkey]
  rw [show List.map rs.bytes (List.range n) = betaNonce rs n from rfl,
    salsa20XORKeyStream_ok ks plaintext _ key hnl]
  rfl

/-- With a nonce length of 8 or 24 and a 32-byte key, Beta's decryption panics on a
ciphertext shorter than 24 bytes and otherwise xors the bytes from offset 24 on with the
key stream of the nonce prefix. -/
theorem beta_decryption_valid (sb : ServitorBeta) (ks : KeyStream)
    (key ciphertext : List Byte) (n : Nat) (hsb : sb.Salsa20NonceLength = (n : Int))
    (hn : n = 24 ∨ n = 8) (hkey : key.length = 32) :
    sb.SymmetricDecryption ks key ciphertext
      = if ciphertext.length < 24 then goPanic GoPanic.sliceBounds
        else Except.ok (xorBytes (ciphertext.drop 24)
          (streamBytes ks (ciphertext.take n) key (ciphertext.length - 24))) := by
  have hk : ¬ ((key.length : Int) ≠ 32) := by omega
  by_cases hlen : ciphertext.length < 24
  · rw [if_pos hlen]
    by_cases hto : (n : Int) < 0 ∨ (n : Int) > (ciphertext.length : Int)
    · simp only [ServitorBeta.SymmetricDecryption, hsb, goSliceTo, hto, if_true, bind,
        Except.bind, goPanic]
    · have hfrom : (24 : Int) < 0 ∨ (24 : Int) > (ciphertext.length : Int) := by omega
      simp only [ServitorBeta.SymmetricDecryption, hsb, goSliceTo, hto, if_false, bind,
        Except.bind, goSliceFrom, hfrom, if_true, goPanic, pure, Except.pure]
  · rw [if_neg hlen]
    have hto : ¬ ((n : Int) < 0 ∨ (n : Int) > (ciphertext.length : Int)) := by omega
    have hfrom : ¬ ((24 : Int) < 0 ∨ (24 : Int) > (ciphertext.length : Int)) := by omega
    have hnl : (ciphertext.take n).length = 24 ∨ (ciphertext.take n).length = 8 := by
      rw [List.length_take]
      omega
    have h24 : (24 : Int).toNat = 24 := rfl
    have hd : (ciphertext.drop 24).length = ciphertext.length - 24 := List.length_drop _ _
    simp only [ServitorBeta.SymmetricDecryption, hsb, goSliceTo, hto, if_false, bind,
      Except.bind, goSliceFrom, hfrom, pure, Except.pure, defaultSalsa20KeyLength, hk,
      goCopy_key key hkey, goMake_ok, Int.toNat_ofNat, h24]
    rw [salsa20XORKeyStream_ok ks _ _ key hnl, hd]

theorem sampleKey32_length : sampleKey32.length = 32 := by decide

/-! ## Claims about the Beta provider -/

/-- C3 (Beta round trip, nonce length 24): for a Beta provider whose nonce length is the
default 24, every 32-byte key, every plaintext and every nonce a successful random source
yields, `SymmetricEncryption` succeeds and `SymmetricDecryption` of its output under the
same key succeeds and returns exactly the plaintext. -/
theorem beta_round_trip_default (sb : ServitorBeta) (ks : KeyStream) (rs : RandSource)
    (key plaintext : List Byte) (hsb : sb.Salsa20NonceLength = 24)
    (hrs : rs.fails = false) (hkey : key.length = 32) :
    ∃ ciphertext, sb.SymmetricEncryption ks rs key plaintext = Except.ok ciphertext
      ∧ sb.SymmetricDecryption ks key ciphertext = Except.ok plaintext := by
  refine ⟨_, beta_encryption_valid sb ks rs key plaintext 24 hsb (Or.inl rfl) hrs hkey, ?_⟩
  have hnl := betaNonce_length rs 24
  have hxl : (xorBytes plaintext
      (streamBytes ks (betaNonce rs 24) key plaintext.length)).length = plaintext.length := by
    rw [xorBytes_length, streamBytes_length, Nat.min_self]
  rw [beta_decryption_valid sb ks key _ 24 hsb (Or.inl rfl) hkey]
  have hlen : ¬ ((betaNonce rs 24 ++ xorBytes plaintext
      (streamBytes ks (betaNonce rs 24) key plaintext.length)).length < 24) := by
    rw [List.length_append, hnl]
    omega
  rw [if_neg hlen, List.drop_left' hnl, List.take_left' hnl, List.length_append, hnl, hxl,
    Nat.add_sub_cancel_left, xorBytes_cancel _ _ (by rw [streamBytes_length])]

theorem beta_round_trip_default_witness :
    ∃ ciphertext,
      (NewServitorBeta defaultPasswordLength defaultSalsa20NonceLength).SymmetricEncryption
          mixStream countingSource sampleKey32 sampleMessage = Except.ok ciphertext
      ∧ (NewServitorBeta defaultPasswordLength defaultSalsa20NonceLength).SymmetricDecryption
          mixStream sampleKey32 ciphertext = Except.ok sampleMessage :=
  beta_round_trip_default (NewServitorBeta defaultPasswordLength defaultSalsa20NonceLength)
    mixStream countingSource sampleKey32 sampleMessage (by decide) rfl (by decide)

/-- C4 (Beta round trip, nonce length 8) does not hold on the code: for a provider
constructed with nonce length 8, the 32-byte key of the tests, every key stream, every
nonce the random source yields and every plaintext, `SymmetricEncryption` succeeds with
8 + len(plaintext) bytes, and `SymmetricDecryption` of that output slices the remainder
at offset 24 instead of 8: it panics when the plaintext has fewer than 16 bytes and
otherwise returns 16 bytes fewer than the plaintext, so it never returns the plaintext. -/
theorem beta_round_trip_nonce8_fails (ks : KeyStream) (bytes : Nat → Byte)
    (passwordLength : Int) (plaintext : List Byte) :
    ∃ ciphertext,
      (NewServitorBeta passwordLength 8).SymmetricEncryption ks (RandSource.mk false bytes)
          sampleKey32 plaintext = Except.ok ciphertext
      ∧ ciphertext.length = 8 + plaintext.length
      ∧ (NewServitorBeta passwordLength 8).SymmetricDecryption ks sampleKey32 ciphertext
          = (if plaintext.length < 16 then goPanic GoPanic.sliceBounds
             else Except.ok (xorBytes (ciphertext.drop 24)
               (streamBytes ks (ciphertext.take 8) sampleKey32 (plaintext.length - 16))))
      ∧ (NewServitorBeta passwordLength 8).SymmetricDecryption ks sampleKey32 ciphertext
          ≠ Except.ok plaintext := by
  have hsb : (NewServitorBeta passwordLength 8).Salsa20NonceLength = ((8 : Nat) : Int) := by
    simp [NewServitorBeta, nonceLengthLoop, salsa20ValidNonceLengths]
  have henc := beta_encryption_valid (NewServitorBeta passwordLength 8) ks
    (RandSource.mk false bytes) sampleKey32 plaintext 8 hsb (Or.inr rfl) rfl sampleKey32_length
  have hnl := betaNonce_length (RandSource.mk false bytes) 8
  have hlen : (betaNonce (RandSource.mk false bytes) 8 ++ xorBytes plaintext
      (streamBytes ks (betaNonce (RandSource.mk false bytes) 8) sampleKey32
        plaintext.length)).length = 8 + plaintext.length := by
    rw [List.length_append, hnl, xorBytes_length, streamBytes_length, Nat.min_self]
  have hdec := beta_decryption_valid (NewServitorBeta passwordLength 8) ks sampleKey32
    (betaNonce (RandSource.mk false bytes) 8 ++ xorBytes plaintext
      (streamBytes ks (betaNonce (RandSource.mk false bytes) 8) sampleKey32
        plaintext.length)) 8 hsb (Or.inr rfl) sampleKey32_length
  rw [hlen] at hdec
  refine ⟨_, henc, hlen, ?_, ?_⟩
  · rw [hdec]
    by_cases h : plaintext.length < 16
    · have h2 : 8 + plaintext.length < 24 := by omega
      rw [if_pos h, if_pos h2]
    · have h2 : ¬ (8 + plaintext.length < 24) := by omega
      have h3 : 8 + plaintext.length - 24 = plaintext.length - 16 := by omega
      rw [if_neg h, if_neg h2, h3]
  · rw [hdec]
    by_cases h2 : 8 + plaintext.length < 24
    · rw [if_pos h2]
      intro hc
      simp [goPanic] at hc
    · rw [if_neg h2]
      intro hc
      have hl := congrArg List.length (Except.ok.inj hc)
      rw [xorBytes_length, streamBytes_length, List.length_drop, hlen] at hl
      omega

/-! ## Further facts about the Beta provider -/

/-- The fields `NewServitorBeta` returns. -/
theorem NewServitorBeta_fields (passwordLength nonceLength : Int) :
    (NewServitorBeta passwordLength nonceLength).PasswordLength
        = (if 16 ≤ passwordLength ∧ passwordLength ≤ 64 then passwordLength else 32)
      ∧ (NewServitorBeta passwordLength nonceLength).Salsa20NonceLength
        = (if nonceLength = 8 ∨ nonceLength = 24 then nonceLength else 24) := by
  constructor
  · simp only [NewServitorBeta, minPasswordLength, maxPasswordLength, defaultPasswordLength]
    by_cases h : passwordLength < 16 ∨ passwordLength > 64
    · have h2 : ¬ (16 ≤ passwordLength ∧ passwordLength ≤ 64) := by omega
      rw [if_pos h, if_neg h2]
    · have h2 : 16 ≤ passwordLength ∧ passwordLength ≤ 64 := by omega
      rw [if_neg h, if_pos h2]
  · simp only [NewServitorBeta, nonceLengthLoop, salsa20ValidNonceLengths,
      defaultSalsa20NonceLength]
    by_cases h8 : nonceLength = 8
    · simp [h8]
    · by_cases h24 : nonceLength = 24
      · simp [h24]
      · simp [h8, h24]

/-- The nonce length `NewServitorBeta` configures is 8 or 24. -/
theorem NewServitorBeta_nonce (passwordLength nonceLength : Int) :
    ∃ n : Nat, (n = 24 ∨ n = 8)
      ∧ (NewServitorBeta passwordLength nonceLength).Salsa20NonceLength = (n : Int) := by
  have h := (NewServitorBeta_fields passwordLength nonceLength).2
  by_cases h8 : nonceLength = 8
  · refine ⟨8, Or.inr rfl, ?_⟩
    rw [h, if_pos (Or.inl h8), h8]
    rfl
  · by_cases h24 : nonceLength = 24
    · refine ⟨24, Or.inl rfl, ?_⟩
      rw [h, if_pos (Or.inr h24), h24]
      rfl
    · refine ⟨24, Or.inl rfl, ?_⟩
      have hc : ¬ (nonceLength = 8 ∨ nonceLength = 24) := by omega
      rw [h, if_neg hc]
      rfl

/-- With a working random source and a non-negative nonce length, Beta's encryption
returns the invalid-key-length error on a key that is not 32 bytes long. -/
theorem beta_encryption_invalid_key (sb : ServitorBeta) (ks : KeyStream) (rs : RandSource)
    (key plaintext : List Byte) (n : Nat) (hsb : sb.Salsa20NonceLength = (n : Int))
    (hrs : rs.fails = false) (hkey : key.length ≠ 32) :
    sb.SymmetricEncryption ks rs key plaintext
      = goErr (ServitorError.invalidKeyLengthBeta (key.length : Int) 32) := by
  have hk : (key.length : Int) ≠ 32 := by omega
  simp only [ServitorBeta.SymmetricEncryption, hsb, goMake_ok, bind, Except.bind,
    randRead_ok rs hrs, defaultSalsa20KeyLength, hk, ne_eq, not_false_eq_true, if_true]

/-- Beta's decryption panics on every ciphertext shorter than 24 bytes, before it looks at
the key. -/
theorem beta_decryption_short (sb : ServitorBeta) (ks : KeyStream)
    (key ciphertext : List Byte) (hlen : ciphertext.length < 24) :
    sb.SymmetricDecryption ks key ciphertext = goPanic GoPanic.sliceBounds := by
  by_cases hto : sb.Salsa20NonceLength < 0
      ∨ sb.Salsa20NonceLength > (ciphertext.length : Int)
  · simp only [ServitorBeta.SymmetricDecryption, goSliceTo, hto, if_true, bind,
      Except.bind, goPanic]
  · have hfrom : (24 : Int) < 0 ∨ (24 : Int) > (ciphertext.length : Int) := by omega
    simp only [ServitorBeta.SymmetricDecryption, goSliceTo, hto, if_false, bind,
      Except.bind, goSliceFrom, hfrom, if_true, goPanic, pure, Except.pure]

/-- On a ciphertext of at least 24 bytes and a nonce length of 8 or 24, Beta's decryption
returns the invalid-key-length error on a key that is not 32 bytes long. -/
theorem beta_decryption_invalid_key (sb : ServitorBeta) (ks : KeyStream)
    (key ciphertext : List Byte) (n : Nat) (hsb : sb.Salsa20NonceLength = (n : Int))
    (hn : n = 24 ∨ n = 8) (hlen : 24 ≤ ciphertext.length) (hkey : key.length ≠ 32) :
    sb.SymmetricDecryption ks key ciphertext
      = goErr (ServitorError.invalidKeyLengthBeta (key.length : Int) 32) := by
  have hk : (key.length : Int) ≠ 32 := by omega
  have hto : ¬ ((n : Int) < 0 ∨ (n : Int) > (ciphertext.length : Int)) := by omega
  have hfrom : ¬ ((24 : Int) < 0 ∨ (24 : Int) > (ciphertext.length : Int)) := by omega
  simp only [ServitorBeta.SymmetricDecryption, hsb, goSliceTo, hto, if_false, bind,
    Except.bind, goSliceFrom, hfrom, pure, Except.pure, defaultSalsa20KeyLength, hk, ne_eq,
    not_false_eq_true, if_true]

/-! ## Claims about Beta's key validation, output layout and construction -/

/-- C11: when the random source succeeds, Beta's `SymmetricEncryption` fails if and only
if the key is not 32 bytes long, for every configuration `NewServitorBeta` builds and
every plaintext; when it fails, the failure is the invalid-key-length error and no bytes
are returned. -/
theorem beta_encryption_fails_iff (passwordLength nonceLength : Int) (ks : KeyStream)
    (rs : RandSource) (key plaintext : List Byte) (hrs : rs.fails = false) :
    ((∃ f, (NewServitorBeta passwordLength nonceLength).SymmetricEncryption ks rs key
          plaintext = Except.error f) ↔ key.length ≠ 32)
      ∧ (∀ f, (NewServitorBeta passwordLength nonceLength).SymmetricEncryption ks rs key
          plaintext = Except.error f →
          f = Failure.error (ServitorError.invalidKeyLengthBeta (key.length : Int) 32)) := by
  obtain ⟨n, hn, hsb⟩ := NewServitorBeta_nonce passwordLength nonceLength
  by_cases hkey : key.length = 32
  · have h := beta_encryption_valid _ ks rs key plaintext n hsb hn hrs hkey
    refine ⟨⟨?_, fun hc => absurd hkey hc⟩, ?_⟩
    · rintro ⟨f, hf⟩
      rw [h] at hf
      exact Except.noConfusion hf
    · intro f hf
      rw [h] at hf
      exact Except.noConfusion hf
  · have h := beta_encryption_invalid_key _ ks rs key plaintext n hsb hrs hkey
    refine ⟨⟨fun _ => hkey, fun _ => ⟨_, h⟩⟩, ?_⟩
    intro f hf
    rw [h] at hf
    exact (Except.error.inj hf).symm

theorem beta_encryption_fails_iff_witness :
    ((∃ f, (NewServitorBeta 32 8).SymmetricEncryption mixStream countingSource sampleKey16
          sampleMessage = Except.error f) ↔ sampleKey16.length ≠ 32)
      ∧ (∀ f, (NewServitorBeta 32 8).SymmetricEncryption mixStream countingSource sampleKey16
          sampleMessage = Except.error f →
          f = Failure.error
            (ServitorError.invalidKeyLengthBeta (sampleKey16.length : Int) 32)) :=
  beta_encryption_fails_iff 32 8 mixStream countingSource sampleKey16 sampleMessage rfl

/-- C13 as stated fails: on the 3-byte ciphertext `[1, 2, 3]` and the 3-byte key
`[1, 2, 3]` the default Beta provider does not return the invalid-key-length error; the
slice `ciphertext[24:]` panics before the key is checked. -/
theorem beta_decryption_key_check_counterexample :
    (NewServitorBeta 32 24).SymmetricDecryption mixStream [1, 2, 3] [1, 2, 3]
        = goPanic GoPanic.sliceBounds
      ∧ (NewServitorBeta 32 24).SymmetricDecryption mixStream [1, 2, 3] [1, 2, 3]
        ≠ goErr (ServitorError.invalidKeyLengthBeta 3 32) := by
  decide

/-- C13 (amended): for a Beta provider with nonce length 8 or 24, every ciphertext of at
least 24 bytes and every key whose length is not 32, `SymmetricDecryption` fails with the
invalid-key-length error, the same error `SymmetricEncryption` returns for that key when
the random source succeeds. -/
theorem beta_decryption_invalid_key_length (sb : ServitorBeta) (ks : KeyStream)
    (rs : RandSource) (key ciphertext plaintext : List Byte)
    (hsb : sb.Salsa20NonceLength = 8 ∨ sb.Salsa20NonceLength = 24)
    (hlen : 24 ≤ ciphertext.length) (hkey : key.length ≠ 32) (hrs : rs.fails = false) :
    sb.SymmetricDecryption ks key ciphertext
        = goErr (ServitorError.invalidKeyLengthBeta (key.length : Int) 32)
      ∧ sb.SymmetricEncryption ks rs key plaintext
        = sb.SymmetricDecryption ks key ciphertext := by
  obtain ⟨n, hn, hsbn⟩ : ∃ n : Nat, (n = 24 ∨ n = 8) ∧ sb.Salsa20NonceLength = (n : Int) := by
    rcases hsb with h | h
    · exact ⟨8, Or.inr rfl, by rw [h]; rfl⟩
    · exact ⟨24, Or.inl rfl, by rw [h]; rfl⟩
  have hd := beta_decryption_invalid_key sb ks key ciphertext n hsbn hn hlen hkey
  have he := beta_encryption_invalid_key sb ks rs key plaintext n hsbn hrs hkey
  exact ⟨hd, by rw [hd, he]⟩

theorem beta_decryption_invalid_key_length_witness :
    (NewServitorBeta 32 8).SymmetricDecryption mixStream sampleKey16 sampleMessage
        = goErr (ServitorError.invalidKeyLengthBeta (sampleKey16.length : Int) 32)
      ∧ (NewServitorBeta 32 8).SymmetricEncryption mixStream countingSource sampleKey16
          sampleMessage
        = (NewServitorBeta 32 8).SymmetricDecryption mixStream sampleKey16 sampleMessage :=
  beta_decryption_invalid_key_length (NewServitorBeta 32 8) mixStream countingSource
    sampleKey16 sampleMessage sampleMessage (Or.inl (by decide)) (by decide) (by decide) rfl

/-- C14 as stated fails: on the 3-byte ciphertext `[1, 2, 3]` and the 32-byte key of the
tests, a Beta provider with nonce length 8 returns neither a result nor an error value;
slicing panics with slice bounds out of range. -/
theorem beta_decryption_undersized_counterexample :
    (NewServitorBeta 32 8).SymmetricDecryption mixStream sampleKey32 [1, 2, 3]
        = goPanic GoPanic.sliceBounds
      ∧ ¬ ((∃ r, (NewServitorBeta 32 8).SymmetricDecryption mixStream sampleKey32 [1, 2, 3]
              = Except.ok r)
          ∨ (∃ e, (NewServitorBeta 32 8).SymmetricDecryption mixStream sampleKey32 [1, 2, 3]
              = goErr e)) := by
  have h : (NewServitorBeta 32 8).SymmetricDecryption mixStream sampleKey32 [1, 2, 3]
      = goPanic GoPanic.sliceBounds := by decide
  refine ⟨h, ?_⟩
  rw [h]
  rintro (⟨r, hr⟩ | ⟨e, he⟩)
  · exact Except.noConfusion hr
  · simp [goPanic, goErr] at he

/-- C14 (amended): for every Beta provider with nonce length 8 or 24, every key (the
32-byte ones included) and every ciphertext shorter than the nonce prefix the provider
expects, `SymmetricDecryption` has no length check: it returns neither a result nor an
error value, the slicing of the ciphertext panics with slice bounds out of range. -/
theorem beta_decryption_undersized_panics (sb : ServitorBeta) (ks : KeyStream)
    (key ciphertext : List Byte)
    (hsb : sb.Salsa20NonceLength = 8 ∨ sb.Salsa20NonceLength = 24)
    (hlen : (ciphertext.length : Int) < sb.Salsa20NonceLength) :
    sb.SymmetricDecryption ks key ciphertext = goPanic GoPanic.sliceBounds :=
  beta_decryption_short sb ks key ciphertext (by omega)

theorem beta_decryption_undersized_panics_witness :
    (NewServitorBeta 32 24).SymmetricDecryption mixStream sampleKey32 sampleKey16
        = goPanic GoPanic.sliceBounds :=
  beta_decryption_undersized_panics (NewServitorBeta 32 24) mixStream sampleKey32 sampleKey16
    (Or.inr (by decide)) (by decide)

/-- C17: for every Beta provider `NewServitorBeta` builds, with configured nonce length
`N`, every 32-byte key, every plaintext and every nonce a successful random source
yields, the output of `SymmetricEncryption` starts with that `N`-byte nonce and has total
length exactly `N + len(plaintext)`. -/
theorem beta_encryption_layout (passwordLength nonceLength : Int) (ks : KeyStream)
    (rs : RandSource) (key plaintext : List Byte) (hrs : rs.fails = false)
    (hkey : key.length = 32) :
    ∃ (N : Nat) (ciphertext : List Byte),
      (N : Int) = (NewServitorBeta passwordLength nonceLength).Salsa20NonceLength
      ∧ (NewServitorBeta passwordLength nonceLength).SymmetricEncryption ks rs key plaintext
          = Except.ok ciphertext
      ∧ (betaNonce rs N).length = N
      ∧ ciphertext.take N = betaNonce rs N
      ∧ ciphertext.length = N + plaintext.length := by
  obtain ⟨n, hn, hsb⟩ := NewServitorBeta_nonce passwordLength nonceLength
  have hnl := betaNonce_length rs n
  refine ⟨n, _, hsb.symm, beta_encryption_valid _ ks rs key plaintext n hsb hn hrs hkey,
    hnl, ?_, ?_⟩
  · rw [List.take_left' hnl]
  · rw [List.length_append, hnl, xorBytes_length, streamBytes_length, Nat.min_self]

theorem beta_encryption_layout_witness :
    ∃ (N : Nat) (ciphertext : List Byte),
      (N : Int) = (NewServitorBeta 32 8).Salsa20NonceLength
      ∧ (NewServitorBeta 32 8).SymmetricEncryption mixStream countingSource sampleKey32
          sampleMessage = Except.ok ciphertext
      ∧ (betaNonce countingSource N).length = N
      ∧ ciphertext.take N = betaNonce countingSource N
      ∧ ciphertext.length = N + sampleMessage.length :=
  beta_encryption_layout 32 8 mixStream countingSource sampleKey32 sampleMessage rfl
    (by decide)

/-- C18: for all integers `pl` and `nl`, `NewServitorBeta pl nl` (a total function, it
cannot fail) has `PasswordLength = pl` if `16 ≤ pl ≤ 64` and 32 otherwise, and
`Salsa20NonceLength = nl` if `nl` is 8 or 24 and 24 otherwise; each field depends on its
own argument only. -/
theorem NewServitorBeta_clamps (pl nl : Int) :
    (NewServitorBeta pl nl).PasswordLength = (if 16 ≤ pl ∧ pl ≤ 64 then pl else 32)
      ∧ (NewServitorBeta pl nl).Salsa20NonceLength = (if nl = 8 ∨ nl = 24 then nl else 24)
      ∧ (∀ nl2 : Int, (NewServitorBeta pl nl2).PasswordLength
          = (NewServitorBeta pl nl).PasswordLength)
      ∧ (∀ pl2 : Int, (NewServitorBeta pl2 nl).Salsa20NonceLength
          = (NewServitorBeta pl nl).Salsa20NonceLength) := by
  refine ⟨(NewServitorBeta_fields pl nl).1, (NewServitorBeta_fields pl nl).2, ?_, ?_⟩
  · intro nl2
    rw [(NewServitorBeta_fields pl nl2).1, (NewServitorBeta_fields pl nl).1]
  · intro pl2
    rw [(NewServitorBeta_fields pl2 nl).2, (NewServitorBeta_fields pl nl).2]

/-! ## Further facts about the Alpha provider -/

/-- The function `removePKCS7Padding` never panics: it returns a value or an error
value. -/
theorem removePKCS7Padding_total (text : List Byte) (b : Int) :
    (∃ r, removePKCS7Padding text b = Except.ok r)
      ∨ (∃ e, removePKCS7Padding text b = goErr e) := by
  by_cases hb : b < 1 ∨ b > 255
  · exact Or.inr ⟨_, removePKCS7Padding_invalid text b hb⟩
  · have h1 : 1 ≤ b := by omega
    have h2 : b ≤ 255 := by omega
    by_cases hne : text = []
    · subst hne
      exact Or.inr ⟨_, removePKCS7Padding_empty b h1 h2⟩
    · by_cases hmod : (text.length : Int) % b = 0
      · rw [removePKCS7Padding_aligned text b h1 h2 _ (List.getLast?_eq_getLast text hne) hmod]
        split
        · exact Or.inr ⟨_, rfl⟩
        · exact Or.inl ⟨_, rfl⟩
      · exact Or.inr ⟨_, removePKCS7Padding_unaligned text b h1 h2 hne hmod⟩

/-- Alpha's decryption panics on every ciphertext shorter than 16 bytes, before it looks
at the key. -/
theorem alpha_decryption_short (sa : ServitorAlpha) (aes : AES) (key ciphertext : List Byte)
    (hlen : ciphertext.length < 16) :
    sa.SymmetricDecryption aes key ciphertext = goPanic GoPanic.sliceBounds := by
  have hto : (16 : Int) < 0 ∨ (16 : Int) > (ciphertext.length : Int) := by omega
  simp only [ServitorAlpha.SymmetricDecryption, aesBlockSize, goSliceTo, hto, if_true, bind,
    Except.bind, goPanic]

/-- With a valid key and a ciphertext of at least 16 bytes, Alpha's decryption panics when
the part after the IV is not a whole number of blocks, and otherwise removes the padding
from the CBC decryption of that part. -/
theorem alpha_decryption_long (sa : ServitorAlpha) (aes : AES) (key ciphertext : List Byte)
    (hkey : key.length = 16 ∨ key.length = 24 ∨ key.length = 32)
    (hlen : 16 ≤ ciphertext.length) :
    sa.SymmetricDecryption aes key ciphertext
      = if (ciphertext.length - 16) % 16 ≠ 0 then goPanic GoPanic.cbcInputNotFullBlocks
        else removePKCS7Padding (cbcDecryptLoop (aes key) ((ciphertext.length - 16) / 16)
          (ciphertext.take 16) (ciphertext.drop 16)) 16 := by
  have hto : ¬ ((16 : Int) < 0 ∨ (16 : Int) > (ciphertext.length : Int)) := by omega
  have h16 : (16 : Int).toNat = 16 := rfl
  have hiv : ((ciphertext.take 16).length : Int) = 16 := by
    rw [List.length_take]
    omega
  have hd : (ciphertext.drop 16).length = ciphertext.length - 16 := List.length_drop _ _
  simp only [ServitorAlpha.SymmetricDecryption, aesBlockSize, goSliceTo, goSliceFrom, hto,
    if_false, h16, bind, Except.bind, pure, Except.pure, aesNewCipher, hkey, if_true, newCBC,
    hiv, ne_eq, not_true_eq_false, goMake_ok, CBCMode.decryptBlocks, hd,
    List.length_replicate, lt_self_iff_false]
  by_cases hmod : (ciphertext.length - 16) % 16 = 0
  · simp [hmod]
  · simp [hmod, goPanic]

/-! ## Claims about Alpha's decryption of malformed ciphertext and its output layout -/

/-- C12 as stated fails: on the 3-byte ciphertext `[1, 2, 3]` Alpha's decryption returns
no error value; slicing the IV panics with slice bounds out of range. -/
theorem alpha_decryption_short_counterexample :
    NewServitorAlpha.SymmetricDecryption shiftCipher sampleKey16 [1, 2, 3]
        = goPanic GoPanic.sliceBounds
      ∧ ¬ ∃ e, NewServitorAlpha.SymmetricDecryption shiftCipher sampleKey16 [1, 2, 3]
          = goErr e := by
  have h : NewServitorAlpha.SymmetricDecryption shiftCipher sampleKey16 [1, 2, 3]
      = goPanic GoPanic.sliceBounds := by decide
  refine ⟨h, ?_⟩
  rw [h]
  rintro ⟨e, he⟩
  simp [goPanic, goErr] at he

/-- C12 (amended): for every ciphertext shorter than the 16-byte block size and every
key, Alpha's `SymmetricDecryption` has no length check and returns no error value: the
slicing of the ciphertext panics with slice bounds out of range. -/
theorem alpha_decryption_short_panics (sa : ServitorAlpha) (aes : AES)
    (key ciphertext : List Byte) (hlen : ciphertext.length < 16) :
    sa.SymmetricDecryption aes key ciphertext = goPanic GoPanic.sliceBounds :=
  alpha_decryption_short sa aes key ciphertext hlen

theorem alpha_decryption_short_panics_witness :
    NewServitorAlpha.SymmetricDecryption shiftCipher sampleKey32 [7, 7, 7, 7, 7]
      = goPanic GoPanic.sliceBounds :=
  alpha_decryption_short_panics NewServitorAlpha shiftCipher sampleKey32 [7, 7, 7, 7, 7]
    (by decide)

/-- C15 as stated fails: on a valid 16-byte key and a 19-byte ciphertext (an IV and three
more bytes) Alpha's decryption returns neither a plaintext nor an error value;
`CryptBlocks` panics with "input not full blocks". -/
theorem alpha_decryption_partial_block_counterexample :
    NewServitorAlpha.SymmetricDecryption shiftCipher sampleKey16 (sampleKey16 ++ [1, 2, 3])
        = goPanic GoPanic.cbcInputNotFullBlocks
      ∧ ¬ ((∃ r, NewServitorAlpha.SymmetricDecryption shiftCipher sampleKey16
              (sampleKey16 ++ [1, 2, 3]) = Except.ok r)
          ∨ (∃ e, NewServitorAlpha.SymmetricDecryption shiftCipher sampleKey16
              (sampleKey16 ++ [1, 2, 3]) = goErr e)) := by
  have h : NewServitorAlpha.SymmetricDecryption shiftCipher sampleKey16
      (sampleKey16 ++ [1, 2, 3]) = goPanic GoPanic.cbcInputNotFullBlocks := by decide
  refine ⟨h, ?_⟩
  rw [h]
  rintro (⟨r, hr⟩ | ⟨e, he⟩)
  · exact Except.noConfusion hr
  · simp [goPanic, goErr] at he

/-- C15 (amended): for every valid key (16, 24 or 32 bytes) and every ciphertext of at
least 16 bytes, Alpha's `SymmetricDecryption` returns a plaintext or an error value, and
does not fault, exactly when the part after the IV is a multiple of 16 bytes long; a
ciphertext that is only the IV gives the "invalid plaintext" error, and a part after the
IV that is not a multiple of 16 bytes makes `CryptBlocks` panic. -/
theorem alpha_decryption_no_fault_iff (sa : ServitorAlpha) (aes : AES)
    (key ciphertext : List Byte)
    (hkey : key.length = 16 ∨ key.length = 24 ∨ key.length = 32)
    (hlen : 16 ≤ ciphertext.length) :
    (((∃ r, sa.SymmetricDecryption aes key ciphertext = Except.ok r)
          ∨ (∃ e, sa.SymmetricDecryption aes key ciphertext = goErr e))
        ↔ (ciphertext.length - 16) % 16 = 0)
      ∧ ((ciphertext.length - 16) % 16 ≠ 0 →
          sa.SymmetricDecryption aes key ciphertext
            = goPanic GoPanic.cbcInputNotFullBlocks)
      ∧ (ciphertext.length = 16 →
          sa.SymmetricDecryption aes key ciphertext
            = goErr ServitorError.invalidPlaintext) := by
  have h := alpha_decryption_long sa aes key ciphertext hkey hlen
  refine ⟨⟨?_, ?_⟩, ?_, ?_⟩
  · intro hok
    by_contra hmod
    rw [h, if_pos hmod] at hok
    rcases hok with ⟨r, hr⟩ | ⟨e, he⟩
    · exact Except.noConfusion hr
    · simp [goPanic, goErr] at he
  · intro hmod
    rw [h, if_neg (not_not.mpr hmod)]
    exact removePKCS7Padding_total _ 16
  · intro hmod
    rw [h, if_pos hmod]
  · intro h16
    have hmod : ¬ ((ciphertext.length - 16) % 16 ≠ 0) := by omega
    have hz : (ciphertext.length - 16) / 16 = 0 := by omega
    rw [h, if_neg hmod, hz]
    exact removePKCS7Padding_empty 16 (by decide) (by decide)

theorem alpha_decryption_no_fault_iff_witness :
    (((∃ r, NewServitorAlpha.SymmetricDecryption shiftCipher sampleKey16 sampleKey32
              = Except.ok r)
          ∨ (∃ e, NewServitorAlpha.SymmetricDecryption shiftCipher sampleKey16 sampleKey32
              = goErr e))
        ↔ (sampleKey32.length - 16) % 16 = 0)
      ∧ ((sampleKey32.length - 16) % 16 ≠ 0 →
          NewServitorAlpha.SymmetricDecryption shiftCipher sampleKey16 sampleKey32
            = goPanic GoPanic.cbcInputNotFullBlocks)
      ∧ (sampleKey32.length = 16 →
          NewServitorAlpha.SymmetricDecryption shiftCipher sampleKey16 sampleKey32
            = goErr ServitorError.invalidPlaintext) :=
  alpha_decryption_no_fault_iff NewServitorAlpha shiftCipher sampleKey16 sampleKey32
    (Or.inl (by decide)) (by decide)

/-- C16: for every valid key, every plaintext of length `n` and every IV a successful
random source yields, the output of Alpha's `SymmetricEncryption` starts with that 16-byte
IV and has total length `16 + 16 * (n / 16 + 1)`; the part after the IV is a non-empty
multiple of 16 bytes, strictly longer than the plaintext. -/
theorem alpha_encryption_layout (sa : ServitorAlpha) (aes : AES) (rs : RandSource)
    (key plaintext : List Byte) (hrs : rs.fails = false)
    (hkey : key.length = 16 ∨ key.length = 24 ∨ key.length = 32) :
    ∃ ciphertext, sa.SymmetricEncryption aes rs key plaintext = Except.ok ciphertext
      ∧ (alphaIV rs).length = 16
      ∧ ciphertext.take 16 = alphaIV rs
      ∧ ciphertext.length = 16 + 16 * (plaintext.length / 16 + 1)
      ∧ (ciphertext.drop 16).length % 16 = 0
      ∧ 0 < (ciphertext.drop 16).length
      ∧ plaintext.length < (ciphertext.drop 16).length := by
  have hiv := alphaIV_length rs
  have hlen := alphaPadded_length plaintext
  have hbody := cbcEncryptLoop_length (aes key) _ (alphaIV rs) (alphaPadded plaintext) hiv hlen
  have hpad : (alphaPadded plaintext).length = 16 * (plaintext.length / 16 + 1) := by
    simp only [alphaPadded, List.length_append, List.length_replicate]
    omega
  refine ⟨_, alpha_encryption_valid sa aes rs hrs key plaintext hkey, hiv, ?_, ?_, ?_, ?_, ?_⟩
  · rw [List.take_left' hiv]
  · rw [List.length_append, hiv, hbody, ← hlen, hpad]
  · rw [List.drop_left' hiv, hbody]
    omega
  · rw [List.drop_left' hiv, hbody, ← hlen, hpad]
    omega
  · rw [List.drop_left' hiv, hbody, ← hlen, hpad]
    omega

theorem alpha_encryption_layout_witness :
    ∃ ciphertext,
      NewServitorAlpha.SymmetricEncryption shiftCipher countingSource sampleKey16 sampleMessage
          = Except.ok ciphertext
      ∧ (alphaIV countingSource).length = 16
      ∧ ciphertext.take 16 = alphaIV countingSource
      ∧ ciphertext.length = 16 + 16 * (sampleMessage.length / 16 + 1)
      ∧ (ciphertext.drop 16).length % 16 = 0
      ∧ 0 < (ciphertext.drop 16).length
      ∧ sampleMessage.length < (ciphertext.drop 16).length :=
  alpha_encryption_layout NewServitorAlpha shiftCipher countingSource sampleKey16
    sampleMessage rfl (Or.inl (by decide))

/-! ## Beta's password generation -/

theorem allowablePasswordCharacters_length :
    allowablePasswordCharacters.toList.length = 77 := by decide

/-- One draw of the password loop succeeds with a character of the alphabet. -/
theorem password_draw (src : IntnSource) (call : Nat) :
    ∃ c, c ∈ allowablePasswordCharacters.toList
      ∧ (randIntn src call (allowablePasswordCharacters.toList.length : Int) >>=
          fun index => goStringIndex allowablePasswordCharacters.toList index)
        = Except.ok c := by
  have hlen := allowablePasswordCharacters_length
  have hpos : ¬ ((allowablePasswordCharacters.toList.length : Int) ≤ 0) := by omega
  have hb := emod_bounds (src call : Int) (allowablePasswordCharacters.toList.length : Int)
    (by omega)
  have hlt : ((src call : Int) % (allowablePasswordCharacters.toList.length : Int)).toNat
      < allowablePasswordCharacters.toList.length := by omega
  have hneg : ¬ ((src call : Int) % (allowablePasswordCharacters.toList.length : Int) < 0) := by
    omega
  refine ⟨allowablePasswordCharacters.toList.get ⟨_, hlt⟩, List.get_mem _ _ _, ?_⟩
  simp only [randIntn, hpos, if_false, bind, Except.bind, pure, Except.pure, goStringIndex,
    hneg, List.getElem?_eq_getElem hlt]
  rfl

/-- The password loop succeeds, adds one character per iteration, and adds characters of
the alphabet only. -/
theorem passwordLoop_spec (src : IntnSource) (n call : Nat) (password : List Char) :
    ∃ r, passwordLoop src n call password = Except.ok r
      ∧ r.length = password.length + n
      ∧ ∀ c ∈ r, c ∈ password ∨ c ∈ allowablePasswordCharacters.toList := by
  induction n generalizing call password with
  | zero => exact ⟨password, rfl, rfl, fun c hc => Or.inl hc⟩
  | succ n ih =>
    obtain ⟨c, hc, hdraw⟩ := password_draw src call
    obtain ⟨r, hr, hrl, hrm⟩ := ih (call + 1) (password ++ [c])
    refine ⟨r, ?_, ?_, ?_⟩
    · have hstep : passwordLoop src (n + 1) call password
          = ((randIntn src call (allowablePasswordCharacters.toList.length : Int) >>=
              fun index => goStringIndex allowablePasswordCharacters.toList index) >>=
              fun randomChar => passwordLoop src n (call + 1) (password ++ [randomChar])) := by
        simp only [passwordLoop, bind_assoc]
      rw [hstep, hdraw]
      exact hr
    · rw [hrl, List.length_append, List.length_singleton]
      omega
    · intro x hx
      rcases hrm x hx with h | h
      · rcases List.mem_append.mp h with h2 | h2
        · exact Or.inl h2
        · rw [List.mem_singleton] at h2
          exact Or.inr (h2 ▸ hc)
      · exact Or.inr h

/-! ## Claims about Beta's password generation -/

/-- C19: for every requested password length `pl`, every nonce length `n` and every
outcome of the random index source, `(NewServitorBeta pl n).DefaultPassword()` returns a
password with no error, of length exactly the clamped length (`pl` if `16 ≤ pl ≤ 64`, else
32), all of whose characters are in `allowablePasswordCharacters`. -/
theorem beta_default_password (pl n : Int) (src : IntnSource) :
    ∃ password : String, (NewServitorBeta pl n).DefaultPassword src = Except.ok password
      ∧ (password.length : Int) = (if 16 ≤ pl ∧ pl ≤ 64 then pl else 32)
      ∧ ∀ c ∈ password.toList, c ∈ allowablePasswordCharacters.toList := by
  obtain ⟨r, hr, hrl, hrm⟩ :=
    passwordLoop_spec src (NewServitorBeta pl n).PasswordLength.toNat 0 []
  refine ⟨String.mk r, ?_, ?_, ?_⟩
  · simp only [ServitorBeta.DefaultPassword, hr, bind, Except.bind, pure, Except.pure]
  · have hf := (NewServitorBeta_fields pl n).1
    have hl : (String.mk r).length = r.length := rfl
    rw [hl, hrl, hf]
    by_cases hc : 16 ≤ pl ∧ pl ≤ 64
    · rw [if_pos hc]
      simp only [List.length_nil]
      omega
    · rw [if_neg hc]
      simp only [List.length_nil]
      omega
  · intro c hc
    have hc2 : c ∈ r := hc
    rcases hrm c hc2 with h | h
    · simp at h
    · exact h

/-- C20 as stated fails: `allowablePasswordCharacters` does not have 93 characters. -/
theorem allowablePasswordCharacters_count_counterexample :
    ¬ (allowablePasswordCharacters.toList.length = 93
        ∧ allowablePasswordCharacters.toList.Nodup) := by
  decide

/-- C20 (amended): the fixed alphabet `allowablePasswordCharacters` from which Beta draws
password characters contains exactly 77 characters (26 + 26 letters, 10 digits and 15
symbols), all distinct. -/
theorem allowablePasswordCharacters_count :
    allowablePasswordCharacters.toList.length = 77
      ∧ allowablePasswordCharacters.length = 77
      ∧ allowablePasswordCharacters.toList.Nodup := by
  decide

/-! ## Further facts about the padding module -/

/-- What a successful `removePKCS7Padding` tells about its input: the block size is valid,
the text is non-empty and block-aligned, its last byte `last` has a value `p` between 1
and the block size, the last `p` bytes are all `last`, and the result is the text without
them. -/
theorem removePKCS7Padding_ok_inv (text r : List Byte) (b : Int)
    (h : removePKCS7Padding text b = Except.ok r) :
    ∃ last : Byte, 1 ≤ b ∧ b ≤ 255 ∧ (text.length : Int) % b = 0
      ∧ 1 ≤ last.val ∧ (last.val : Int) ≤ b ∧ last.val ≤ text.length
      ∧ text.drop (text.length - last.val) = List.replicate last.val last
      ∧ r = text.take (text.length - last.val) := by
  by_cases hb : b < 1 ∨ b > 255
  · rw [removePKCS7Padding_invalid text b hb] at h
    exact Except.noConfusion h
  · have h1 : 1 ≤ b := by omega
    have h2 : b ≤ 255 := by omega
    by_cases hne : text = []
    · subst hne
      rw [removePKCS7Padding_empty b h1 h2] at h
      exact Except.noConfusion h
    · by_cases hmod : (text.length : Int) % b = 0
      · rw [removePKCS7Padding_aligned text b h1 h2 _ (List.getLast?_eq_getLast text hne)
          hmod] at h
        by_cases hc : (text.getLast hne).val = 0 ∨ ((text.getLast hne).val : Int) > b
            ∨ bytesHasSuffix text
                (List.replicate (text.getLast hne).val (text.getLast hne)) = false
        · rw [if_pos hc] at h
          exact Except.noConfusion h
        · rw [if_neg hc] at h
          have hs : bytesHasSuffix text
              (List.replicate (text.getLast hne).val (text.getLast hne)) = true := by
            by_contra hh
            exact hc (Or.inr (Or.inr (by simpa using hh)))
          have hsuf := (bytesHasSuffix_replicate text _ _).mp hs
          refine ⟨text.getLast hne, h1, h2, hmod, by omega, by omega, hsuf.1, ?_,
            (Except.ok.inj h).symm⟩
          rw [List.eq_replicate_iff]
          refine ⟨?_, hsuf.2⟩
          rw [List.length_drop]
          omega
      · rw [removePKCS7Padding_unaligned text b h1 h2 hne hmod] at h
        exact Except.noConfusion h

/-- The function `addPKCS7Padding` never panics: it returns a value or an error value. -/
theorem addPKCS7Padding_total (text : List Byte) (b : Int) :
    (∃ r, addPKCS7Padding text b = Except.ok r)
      ∨ (∃ e, addPKCS7Padding text b = goErr e) := by
  by_cases hb : b < 1 ∨ b > 255
  · exact Or.inr ⟨_, addPKCS7Padding_invalid text b hb⟩
  · exact Or.inl ⟨_, addPKCS7Padding_valid text b (by omega) (by omega)⟩

/-- A block-aligned length less a pad length `p` in `[1, b]` leaves the remainder
`b - p`. -/
theorem aligned_sub_emod (len b p : Int) (hmod : len % b = 0) (hp1 : 1 ≤ p) (hpb : p ≤ b) :
    b - (len - p) % b = p := by
  obtain ⟨k, hk⟩ := Int.dvd_of_emod_eq_zero hmod
  have e : len - p = (b - p) + b * (k - 1) := by
    rw [hk]
    ring
  rw [e, Int.add_mul_emod_self_left, Int.emod_eq_of_lt (by omega) (by omega)]
  omega

/-- Padding the result of a successful `removePKCS7Padding` gives back its input. -/
theorem addPKCS7Padding_of_removePKCS7Padding (x d : List Byte) (b : Int)
    (h : removePKCS7Padding x b = Except.ok d) :
    addPKCS7Padding d b = Except.ok x := by
  obtain ⟨last, h1, h2, hmod, hp1, hpb, hple, hdrop, hd⟩ := removePKCS7Padding_ok_inv x d b h
  have hdl : (d.length : Int) = (x.length : Int) - (last.val : Int) := by
    rw [hd, List.length_take]
    omega
  have hpad : b - (d.length : Int) % b = (last.val : Int) := by
    rw [hdl]
    exact aligned_sub_emod _ b _ hmod (by omega) hpb
  rw [addPKCS7Padding_valid d b h1 h2, hpad]
  have hbyte : byteOfInt (last.val : Int) = last := byteOfInt_intOfByte last
  rw [hbyte, Int.toNat_ofNat, ← hdrop, hd, List.take_append_drop]

/-! ## Further claims about the padding module -/

/-- C27: for every block size `b` in `[1,255]` and every `data`, the length of
`addPKCS7Padding data b` is a multiple of `b` and exceeds `len(data)` by at least 1 and at
most `b`; it exceeds it by exactly `b` when `len(data)` is a multiple of `b` (the empty
data included). -/
theorem addPKCS7Padding_length (data : List Byte) (b : Int) (h1 : 1 ≤ b) (h2 : b ≤ 255) :
    ∃ result, addPKCS7Padding data b = Except.ok result
      ∧ (result.length : Int) % b = 0
      ∧ data.length + 1 ≤ result.length
      ∧ (result.length : Int) ≤ (data.length : Int) + b
      ∧ ((data.length : Int) % b = 0 → (result.length : Int) = (data.length : Int) + b) := by
  have hb := emod_bounds (data.length : Int) b h1
  have hl : ((data ++ List.replicate (b - (data.length : Int) % b).toNat
      (byteOfInt (b - (data.length : Int) % b))).length : Int)
      = (data.length : Int) + (b - (data.length : Int) % b) := by
    rw [List.length_append, List.length_replicate]
    omega
  refine ⟨_, addPKCS7Padding_valid data b h1 h2, ?_, ?_, ?_, ?_⟩
  · rw [hl]
    exact padded_length_emod _ b
  · rw [List.length_append, List.length_replicate]
    omega
  · rw [hl]
    omega
  · intro hz
    rw [hl, hz]
    omega

theorem addPKCS7Padding_length_witness :
    ∃ result, addPKCS7Padding [] 16 = Except.ok result
      ∧ (result.length : Int) % 16 = 0
      ∧ ([] : List Byte).length + 1 ≤ result.length
      ∧ (result.length : Int) ≤ (([] : List Byte).length : Int) + 16
      ∧ ((([] : List Byte).length : Int) % 16 = 0 →
          (result.length : Int) = (([] : List Byte).length : Int) + 16) :=
  addPKCS7Padding_length [] 16 (by decide) (by decide)

/-- C28: for every block size `b` (in `[1,255]`, as it must be for the removal to succeed)
and every byte sequence `x`, if `removePKCS7Padding x b` succeeds with result `d`, then
`addPKCS7Padding d b` returns exactly `x`; hence two accepted inputs with the same result
are equal. -/
theorem unpad_then_pad (x d : List Byte) (b : Int)
    (h : removePKCS7Padding x b = Except.ok d) :
    addPKCS7Padding d b = Except.ok x
      ∧ ∀ y, removePKCS7Padding y b = Except.ok d → y = x := by
  have hx := addPKCS7Padding_of_removePKCS7Padding x d b h
  refine ⟨hx, ?_⟩
  intro y hy
  have hyx := addPKCS7Padding_of_removePKCS7Padding y d b hy
  rw [hx] at hyx
  exact (Except.ok.inj hyx).symm

theorem unpad_then_pad_witness :
    addPKCS7Padding [1, 2] 4 = Except.ok [1, 2, 2, 2]
      ∧ ∀ y, removePKCS7Padding y 4 = Except.ok [1, 2] → y = [1, 2, 2, 2] :=
  unpad_then_pad [1, 2, 2, 2] [1, 2] 4 (by decide)

/-- C29: the padding functions are total: for every integer block size (0 and negative
values included) and every byte sequence (the empty one included), `addPKCS7Padding` and
`removePKCS7Padding` return a value or an error value and never panic (no division by
zero, no index or slice out of range); when `removePKCS7Padding` succeeds, its result is
a proper prefix of the input, shorter by between 1 and `blockSize` bytes. -/
theorem padding_total (text : List Byte) (blockSize : Int) :
    ((∃ r, addPKCS7Padding text blockSize = Except.ok r)
        ∨ (∃ e, addPKCS7Padding text blockSize = goErr e))
      ∧ ((∃ r, removePKCS7Padding text blockSize = Except.ok r)
        ∨ (∃ e, removePKCS7Padding text blockSize = goErr e))
      ∧ (∀ r, removePKCS7Padding text blockSize = Except.ok r →
          r <+: text ∧ r ≠ text ∧ r.length + 1 ≤ text.length
            ∧ (text.length : Int) ≤ (r.length : Int) + blockSize) := by
  refine ⟨addPKCS7Padding_total text blockSize, removePKCS7Padding_total text blockSize, ?_⟩
  intro r hr
  obtain ⟨last, h1, h2, hmod, hp1, hpb, hple, hdrop, hd⟩ :=
    removePKCS7Padding_ok_inv text r blockSize hr
  have hrl : r.length = text.length - last.val := by
    rw [hd, List.length_take]
    omega
  refine ⟨?_, ?_, by omega, by omega⟩
  · rw [hd]
    exact List.take_prefix _ _
  · intro he
    rw [he] at hrl
    omega

/-! ## Facts about the hexadecimal and base64 encodings -/

theorem hexDigit_fin : ∀ n : Fin 16,
    fromHexChar (hexDigit n.val) = some n.val
      ∧ (('0' ≤ hexDigit n.val ∧ hexDigit n.val ≤ '9')
          ∨ ('a' ≤ hexDigit n.val ∧ hexDigit n.val ≤ 'f')) := by
  decide

theorem fromHexChar_hexDigit (n : Nat) (h : n < 16) : fromHexChar (hexDigit n) = some n :=
  (hexDigit_fin ⟨n, h⟩).1

theorem hexDigit_lower (n : Nat) (h : n < 16) :
    ('0' ≤ hexDigit n ∧ hexDigit n ≤ '9') ∨ ('a' ≤ hexDigit n ∧ hexDigit n ≤ 'f') :=
  (hexDigit_fin ⟨n, h⟩).2

theorem byteOfNat_nibbles (v : Byte) : byteOfNat (v.val / 16 * 16 + v.val % 16) = v := by
  apply Fin.ext
  have hv := v.isLt
  simp only [byteOfNat]
  omega

theorem hexDecode_hexEncode (d : List Byte) : hexDecode (hexEncode d) = Except.ok d := by
  induction d with
  | nil => rfl
  | cons v rest ih =>
    have hv := v.isLt
    simp only [hexEncode, hexDecode, fromHexChar_hexDigit (v.val / 16) (by omega),
      fromHexChar_hexDigit (v.val % 16) (Nat.mod_lt _ (by decide)), ih, bind, Except.bind,
      pure, Except.pure, byteOfNat_nibbles]

theorem hexEncode_length (d : List Byte) : (hexEncode d).length = 2 * d.length := by
  induction d with
  | nil => rfl
  | cons v rest ih =>
    simp only [hexEncode, List.length_cons, ih]
    omega

theorem hexEncode_lower (d : List Byte) :
    ∀ c ∈ hexEncode d, ('0' ≤ c ∧ c ≤ '9') ∨ ('a' ≤ c ∧ c ≤ 'f') := by
  induction d with
  | nil => intro c hc; exact absurd hc (List.not_mem_nil c)
  | cons v rest ih =>
    have hv := v.isLt
    intro c hc
    simp only [hexEncode, List.mem_cons] at hc
    rcases hc with h | h | h
    · rw [h]
      exact hexDigit_lower _ (by omega)
    · rw [h]
      exact hexDigit_lower _ (Nat.mod_lt _ (by decide))
    · exact ih c h

theorem base64Digit_fin : ∀ n : Fin 64,
    base64Index (base64Digit n.val) = some n.val
      ∧ isLineBreak (base64Digit n.val) = false
      ∧ base64Digit n.val
          ∈ "ABCDEFGHIJKLMNOPQRSTUVWXYZabcdefghijklmnopqrstuvwxyz0123456789+/".toList := by
  decide

theorem base64Index_digit (n : Nat) (h : n < 64) : base64Index (base64Digit n) = some n :=
  (base64Digit_fin ⟨n, h⟩).1

theorem base64Index_pad : base64Index base64Pad = none := by decide

theorem isLineBreak_pad : isLineBreak base64Pad = false := by decide

theorem byteOfNat_eq (v : Byte) (n : Nat) (h : n % 256 = v.val) : byteOfNat n = v :=
  Fin.ext h

theorem base64DecodeQuanta_base64Encode :
    ∀ d : List Byte, base64DecodeQuanta (base64Encode d) = Except.ok d
  | [] => rfl
  | [x] => by
    have hx := x.isLt
    simp only [base64Encode, base64DecodeQuanta,
      base64Index_digit (x.val * 65536 / 262144 % 64) (Nat.mod_lt _ (by decide)),
      base64Index_digit (x.val * 65536 / 4096 % 64) (Nat.mod_lt _ (by decide)),
      base64Index_pad, and_self, if_true, pure, Except.pure]
    rw [byteOfNat_eq x _ (by omega)]
  | [x, y] => by
    have hx := x.isLt
    have hy := y.isLt
    simp only [base64Encode, base64DecodeQuanta,
      base64Index_digit ((x.val * 65536 + y.val * 256) / 262144 % 64)
        (Nat.mod_lt _ (by decide)),
      base64Index_digit ((x.val * 65536 + y.val * 256) / 4096 % 64)
        (Nat.mod_lt _ (by decide)),
      base64Index_digit ((x.val * 65536 + y.val * 256) / 64 % 64)
        (Nat.mod_lt _ (by decide)),
      base64Index_pad, and_self, if_true, pure, Except.pure]
    rw [byteOfNat_eq x _ (by omega), byteOfNat_eq y _ (by omega)]
  | x :: y :: z :: rest => by
    have hx := x.isLt
    have hy := y.isLt
    have hz := z.isLt
    have ih := base64DecodeQuanta_base64Encode rest
    simp only [base64Encode, base64DecodeQuanta,
      base64Index_digit ((x.val * 65536 + y.val * 256 + z.val) / 262144 % 64)
        (Nat.mod_lt _ (by decide)),
      base64Index_digit ((x.val * 65536 + y.val * 256 + z.val) / 4096 % 64)
        (Nat.mod_lt _ (by decide)),
      base64Index_digit ((x.val * 65536 + y.val * 256 + z.val) / 64 % 64)
        (Nat.mod_lt _ (by decide)),
      base64Index_digit ((x.val * 65536 + y.val * 256 + z.val) % 64)
        (Nat.mod_lt _ (by decide)),
      ih, bind, Except.bind, pure, Except.pure]
    rw [byteOfNat_eq x _ (by omega), byteOfNat_eq y _ (by omega),
      byteOfNat_eq z _ (by omega)]

theorem base64Digit_char (n : Nat) (h : n < 64) :
    isLineBreak (base64Digit n) = false
      ∧ (base64Digit n ∈ "ABCDEFGHIJKLMNOPQRSTUVWXYZabcdefghijklmnopqrstuvwxyz0123456789+/".toList
          ∨ base64Digit n = '=') :=
  ⟨(base64Digit_fin ⟨n, h⟩).2.1, Or.inl (base64Digit_fin ⟨n, h⟩).2.2⟩

theorem base64Pad_char :
    isLineBreak base64Pad = false
      ∧ (base64Pad ∈ "ABCDEFGHIJKLMNOPQRSTUVWXYZabcdefghijklmnopqrstuvwxyz0123456789+/".toList
          ∨ base64Pad = '=') :=
  ⟨isLineBreak_pad, Or.inr rfl⟩

theorem base64Encode_chars :
    ∀ d : List Byte, ∀ c ∈ base64Encode d,
      isLineBreak c = false
        ∧ (c ∈ "ABCDEFGHIJKLMNOPQRSTUVWXYZabcdefghijklmnopqrstuvwxyz0123456789+/".toList
            ∨ c = '=')
  | [] => fun c hc => absurd hc (List.not_mem_nil c)
  | [x] => by
    intro c hc
    simp only [base64Encode, List.mem_cons, List.mem_singleton] at hc
    rcases hc with h | h | h | h | h
    · rw [h]; exact base64Digit_char _ (Nat.mod_lt _ (by decide))
    · rw [h]; exact base64Digit_char _ (Nat.mod_lt _ (by decide))
    · rw [h]; exact base64Pad_char
    · rw [h]; exact base64Pad_char
    · exact absurd h (List.not_mem_nil c)
  | [x, y] => by
    intro c hc
    simp only [base64Encode, List.mem_cons, List.mem_singleton] at hc
    rcases hc with h | h | h | h | h
    · rw [h]; exact base64Digit_char _ (Nat.mod_lt _ (by decide))
    · rw [h]; exact base64Digit_char _ (Nat.mod_lt _ (by decide))
    · rw [h]; exact base64Digit_char _ (Nat.mod_lt _ (by decide))
    · rw [h]; exact base64Pad_char
    · exact absurd h (List.not_mem_nil c)
  | x :: y :: z :: rest => by
    intro c hc
    have ih := base64Encode_chars rest
    simp only [base64Encode, List.mem_cons] at hc
    rcases hc with h | h | h | h | h
    · rw [h]; exact base64Digit_char _ (Nat.mod_lt _ (by decide))
    · rw [h]; exact base64Digit_char _ (Nat.mod_lt _ (by decide))
    · rw [h]; exact base64Digit_char _ (Nat.mod_lt _ (by decide))
    · rw [h]; exact base64Digit_char _ (Nat.mod_lt _ (by decide))
    · exact ih c h

theorem base64Encode_length :
    ∀ d : List Byte, (base64Encode d).length = 4 * ((d.length + 2) / 3)
  | [] => rfl
  | [_] => by simp [base64Encode]
  | [_, _] => by simp [base64Encode]
  | x :: y :: z :: rest => by
    have ih := base64Encode_length rest
    simp only [base64Encode, List.length_cons, ih]
    omega

theorem Base64Decode_Base64Encode (d : List Byte) :
    Base64Decode (Base64Encode d) = Except.ok d := by
  have hf : (base64Encode d).filter (fun c => !isLineBreak c) = base64Encode d := by
    rw [List.filter_eq_self]
    intro c hc
    rw [(base64Encode_chars d c hc).1]
    rfl
  have hl : (Base64Encode d).toList = base64Encode d := rfl
  rw [Base64Decode, hl, hf]
  exact base64DecodeQuanta_base64Encode d

/-! ## Claims about the encoding wrappers -/

/-- C25: for every byte sequence `d`, `Base64Decode (Base64Encode d)` succeeds and returns
exactly `d`; the encoding uses the standard base64 alphabet with `=` padding and has
length `4 * ceil(len(d) / 3)`. -/
theorem base64_round_trip (d : List Byte) :
    Base64Decode (Base64Encode d) = Except.ok d
      ∧ (Base64Encode d).length = 4 * ((d.length + 2) / 3)
      ∧ ∀ c ∈ (Base64Encode d).toList,
          c ∈ "ABCDEFGHIJKLMNOPQRSTUVWXYZabcdefghijklmnopqrstuvwxyz0123456789+/".toList
            ∨ c = '=' :=
  ⟨Base64Decode_Base64Encode d, base64Encode_length d,
    fun c hc => (base64Encode_chars d c hc).2⟩

/-- C26: for every byte sequence `d`, `HexDecode (HexEncode d)` succeeds and returns
exactly `d`; `HexEncode d` has length `2 * len(d)` and consists only of the lowercase
hexadecimal digits `0`-`9` and `a`-`f`. -/
theorem hex_round_trip (d : List Byte) :
    HexDecode (HexEncode d) = Except.ok d
      ∧ (HexEncode d).length = 2 * d.length
      ∧ ∀ c ∈ (HexEncode d).toList, ('0' ≤ c ∧ c ≤ '9') ∨ ('a' ≤ c ∧ c ≤ 'f') :=
  ⟨hexDecode_hexEncode d, hexEncode_length d, hexEncode_lower d⟩

/-! ## Facts about the UUID library -/

theorem fromHexChar_hi (v : Byte) : fromHexChar (hexDigit (v.val / 16)) = some (v.val / 16) :=
  fromHexChar_hexDigit _ (by have := v.isLt; omega)

theorem fromHexChar_lo (v : Byte) : fromHexChar (hexDigit (v.val % 16)) = some (v.val % 16) :=
  fromHexChar_hexDigit _ (Nat.mod_lt _ (by decide))

/-- The bytes `uuid.NewRandom` returns on a working random source. -/
theorem uuidNewRandom_ok (rs : RandSource) (hrs : rs.fails = false) :
    uuidNewRandom rs
      = Except.ok ((List.range 16).map (fun i =>
          if i = 6 then byteOfNat ((rs.bytes 6).val % 16 + 64)
          else if i = 8 then byteOfNat ((rs.bytes 8).val % 64 + 128)
          else rs.bytes i)) := by
  simp only [uuidNewRandom, randRead_ok rs hrs, bind, Except.bind, pure, Except.pure,
    List.length_replicate]
  rfl

/-- Parsing the canonical form of sixteen bytes gives the bytes back. -/
theorem uuidParse_uuidString (f : Nat → Byte) :
    uuidParse (uuidString ((List.range 16).map f)) = Except.ok ((List.range 16).map f) := by
  have hr : (List.range 16).map f
      = [f 0, f 1, f 2, f 3, f 4, f 5, f 6, f 7, f 8, f 9, f 10, f 11, f 12, f 13, f 14,
          f 15] := rfl
  rw [hr]
  simp [uuidParse, uuidString, hexEncode, uuidFields, fromHexChar_hi, fromHexChar_lo,
    byteOfNat_nibbles, bind, Except.bind, pure, Except.pure]

/-! ## Claim about Alpha's password generation -/

/-- C24: whenever the random source delivers its bytes, whatever they are,
`ServitorAlpha.DefaultPassword()` succeeds (no error) and returns a 36-character string in
the canonical hyphenated form `xxxxxxxx-xxxx-xxxx-xxxx-xxxxxxxxxxxx` of lowercase
hexadecimal digits, which `uuid.Parse` accepts (and maps back to the sixteen bytes). -/
theorem alpha_default_password (sa : ServitorAlpha) (rs : RandSource)
    (hrs : rs.fails = false) :
    ∃ (password : String) (uuid : List Byte) (h0 h1 h2 h3 h4 : List Char),
      sa.DefaultPassword rs = Except.ok password
        ∧ password.length = 36
        ∧ password.toList = h0 ++ '-' :: h1 ++ '-' :: h2 ++ '-' :: h3 ++ '-' :: h4
        ∧ h0.length = 8 ∧ h1.length = 4 ∧ h2.length = 4 ∧ h3.length = 4 ∧ h4.length = 12
        ∧ (∀ c ∈ h0 ++ h1 ++ h2 ++ h3 ++ h4, ('0' ≤ c ∧ c ≤ '9') ∨ ('a' ≤ c ∧ c ≤ 'f'))
        ∧ uuid.length = 16
        ∧ uuidNewRandom rs = Except.ok uuid
        ∧ uuidParse password.toList = Except.ok uuid := by
  have hnew := uuidNewRandom_ok rs hrs
  have hparse := uuidParse_uuidString (fun i =>
    if i = 6 then byteOfNat ((rs.bytes 6).val % 16 + 64)
    else if i = 8 then byteOfNat ((rs.bytes 8).val % 64 + 128)
    else rs.bytes i)
  generalize hu : (List.range 16).map (fun i =>
    if i = 6 then byteOfNat ((rs.bytes 6).val % 16 + 64)
    else if i = 8 then byteOfNat ((rs.bytes 8).val % 64 + 128)
    else rs.bytes i) = u at hnew hparse
  have hlen : u.length = 16 := by
    rw [← hu]
    simp
  have hpw : sa.DefaultPassword rs = Except.ok (String.mk (uuidString u)) := by
    simp only [ServitorAlpha.DefaultPassword, uuidNewString, hnew]
    rfl
  refine ⟨String.mk (uuidString u), u, hexEncode (u.take 4), hexEncode ((u.drop 4).take 2),
    hexEncode ((u.drop 6).take 2), hexEncode ((u.drop 8).take 2), hexEncode (u.drop 10),
    hpw, ?_, rfl, ?_, ?_, ?_, ?_, ?_, ?_, hlen, hnew, hparse⟩
  · have hl : (String.mk (uuidString u)).length = (uuidString u).length := rfl
    rw [hl]
    simp only [uuidString, List.length_append, List.length_cons, hexEncode_length,
      List.length_take, List.length_drop, hlen]
    rfl
  · simp only [hexEncode_length, List.length_take, hlen]
    rfl
  · simp only [hexEncode_length, List.length_take, List.length_drop, hlen]
    rfl
  · simp only [hexEncode_length, List.length_take, List.length_drop, hlen]
    rfl
  · simp only [hexEncode_length, List.length_take, List.length_drop, hlen]
    rfl
  · simp only [hexEncode_length, List.length_drop, hlen]
  · intro c hc
    simp only [List.mem_append] at hc
    rcases hc with (((h | h) | h) | h) | h
    · exact hexEncode_lower _ c h
    · exact hexEncode_lower _ c h
    · exact hexEncode_lower _ c h
    · exact hexEncode_lower _ c h
    · exact hexEncode_lower _ c h

theorem alpha_default_password_witness :
    ∃ (password : String) (uuid : List Byte) (h0 h1 h2 h3 h4 : List Char),
      NewServitorAlpha.DefaultPassword countingSource = Except.ok password
        ∧ password.length = 36
        ∧ password.toList = h0 ++ '-' :: h1 ++ '-' :: h2 ++ '-' :: h3 ++ '-' :: h4
        ∧ h0.length = 8 ∧ h1.length = 4 ∧ h2.length = 4 ∧ h3.length = 4 ∧ h4.length = 12
        ∧ (∀ c ∈ h0 ++ h1 ++ h2 ++ h3 ++ h4, ('0' ≤ c ∧ c ≤ '9') ∨ ('a' ≤ c ∧ c ≤ 'f'))
        ∧ uuid.length = 16
        ∧ uuidNewRandom countingSource = Except.ok uuid
        ∧ uuidParse password.toList = Except.ok uuid :=
  alpha_default_password NewServitorAlpha countingSource rfl

/-! ## Facts about the facade -/

/-- With a working random source, Alpha's encryption returns the invalid-key-length error
on a key whose length is not 16, 24 or 32. -/
theorem alpha_encryption_invalid_key (sa : ServitorAlpha) (aes : AES) (rs : RandSource)
    (key plaintext : List Byte) (hrs : rs.fails = false)
    (hkey : ¬ (key.length = 16 ∨ key.length = 24 ∨ key.length = 32)) :
    sa.SymmetricEncryption aes rs key plaintext
      = goErr (ServitorError.invalidKeyLengthAlpha (key.length : Int)) := by
  have hv : aesValidKeyLengths.any (fun length => decide ((key.length : Int) = length))
      = false := by
    cases h : aesValidKeyLengths.any (fun length => decide ((key.length : Int) = length)) with
    | false => rfl
    | true => exact absurd ((validKeyLength_iff key).mp h) hkey
  have hmk : goMake 16 = Except.ok (List.replicate 16 (0 : Byte)) := goMake_ok 16
  simp only [ServitorAlpha.SymmetricEncryption, aesBlockSize, hmk, bind, Except.bind,
    randRead_ok rs hrs, hv, Bool.not_false, if_true]

/-- On a ciphertext of at least 16 bytes, Alpha's decryption returns the key-size error of
`aes.NewCipher` on a key whose length is not 16, 24 or 32. -/
theorem alpha_decryption_invalid_key (sa : ServitorAlpha) (aes : AES)
    (key ciphertext : List Byte) (hlen : 16 ≤ ciphertext.length)
    (hkey : ¬ (key.length = 16 ∨ key.length = 24 ∨ key.length = 32)) :
    sa.SymmetricDecryption aes key ciphertext
      = goErr (ServitorError.aesKeySizeError (key.length : Int)) := by
  have hto : ¬ ((16 : Int) < 0 ∨ (16 : Int) > (ciphertext.length : Int)) := by omega
  simp only [ServitorAlpha.SymmetricDecryption, aesBlockSize, goSliceTo, goSliceFrom, hto,
    if_false, bind, Except.bind, pure, Except.pure, aesNewCipher, hkey, goErr]

/-- The tag of the type switch, started from "Unknown", is the expected tag. -/
theorem typeSwitch_expectedTag (c : CryptoProvider) :
    typeSwitch c AlgorithmUnknown = expectedTag c := by
  cases c <;> rfl

/-! ## Claims about the Omega facade -/

/-- C21: for every password provider, `GeneratePassword()` returns exactly the pair
(password, error) that the injected password provider's `DefaultPassword()` returns,
whichever crypto provider was injected; `NewServitorOmega` stores the two providers it is
given unchanged. -/
theorem omega_generate_password (passwordProvider : PasswordProvider)
    (cryptoProvider : CryptoProvider) (rt : Runtime) :
    (NewServitorOmega passwordProvider cryptoProvider).GeneratePassword rt
        = passwordProvider.DefaultPassword rt
      ∧ (∀ other : CryptoProvider,
          (NewServitorOmega passwordProvider other).GeneratePassword rt
            = (NewServitorOmega passwordProvider cryptoProvider).GeneratePassword rt)
      ∧ (NewServitorOmega passwordProvider cryptoProvider).passwordProvider = passwordProvider
      ∧ (NewServitorOmega passwordProvider cryptoProvider).cryptoProvider = cryptoProvider :=
  ⟨rfl, fun _ => rfl, rfl, rfl⟩

/-- C22: whenever the injected crypto provider's operation succeeds (returns bytes and a
nil error), `Encrypt` and `Decrypt` return the provider's bytes unchanged, a nil error and
a tag that depends on the provider's concrete type only: "AES" for `ServitorAlpha`,
"Salsa20" for `ServitorBeta`, "Unknown" for any other implementation; the password
provider plays no part. -/
theorem omega_success (passwordProvider : PasswordProvider) (cryptoProvider : CryptoProvider)
    (rt : Runtime) (key input : List Byte) :
    (∀ out, cryptoProvider.SymmetricEncryption rt key input = Except.ok (out, none) →
        (NewServitorOmega passwordProvider cryptoProvider).Encrypt rt key input
          = Except.ok (out, expectedTag cryptoProvider, none))
      ∧ (∀ out, cryptoProvider.SymmetricDecryption rt key input = Except.ok (out, none) →
        (NewServitorOmega passwordProvider cryptoProvider).Decrypt rt key input
          = Except.ok (out, expectedTag cryptoProvider, none)) := by
  constructor
  · intro out h
    simp only [ServitorOmega.Encrypt, NewServitorOmega, h, bind, Except.bind, pure,
      Except.pure, typeSwitch_expectedTag]
  · intro out h
    simp only [ServitorOmega.Decrypt, NewServitorOmega, h, bind, Except.bind, pure,
      Except.pure, typeSwitch_expectedTag]

theorem omega_success_witness :
    ∃ out,
      (CryptoProvider.beta (NewServitorBeta 32 24)).SymmetricEncryption sampleRuntime
          sampleKey32 sampleMessage = Except.ok (some out, none)
      ∧ (NewServitorOmega (PasswordProvider.alpha NewServitorAlpha)
          (CryptoProvider.beta (NewServitorBeta 32 24))).Encrypt sampleRuntime sampleKey32
          sampleMessage = Except.ok (some out, "Salsa20", none) := by
  have h : (CryptoProvider.beta (NewServitorBeta 32 24)).SymmetricEncryption sampleRuntime
      sampleKey32 sampleMessage
      = Except.ok (some (betaNonce countingSource 24 ++ xorBytes sampleMessage
          (streamBytes mixStream (betaNonce countingSource 24) sampleKey32
            sampleMessage.length)), none) := by
    simp only [CryptoProvider.SymmetricEncryption, sampleRuntime,
      beta_encryption_valid (NewServitorBeta 32 24) mixStream countingSource sampleKey32
        sampleMessage 24 (by decide) (Or.inl rfl) rfl sampleKey32_length, returnedBytes]
  exact ⟨_, h, (omega_success (PasswordProvider.alpha NewServitorAlpha)
    (CryptoProvider.beta (NewServitorBeta 32 24)) sampleRuntime sampleKey32 sampleMessage).1
    _ h⟩

/-- C23: whenever the injected crypto provider's operation returns an error, `Encrypt` and
`Decrypt` return absent (nil) bytes, the tag "Unknown" and exactly the provider's error,
whatever the provider's type and whatever bytes came with the error; in particular, over
Alpha with a key whose length is not 16, 24 or 32, `Encrypt` (the random source
delivering) returns nil, "Unknown" and the invalid-key-length error, and `Decrypt` of a
ciphertext of at least 16 bytes returns nil, "Unknown" and the key-size error of
`aes.NewCipher`. -/
theorem omega_failure (passwordProvider : PasswordProvider) (cryptoProvider : CryptoProvider)
    (rt : Runtime) (key input : List Byte) :
    (∀ out e, cryptoProvider.SymmetricEncryption rt key input = Except.ok (out, some e) →
        (NewServitorOmega passwordProvider cryptoProvider).Encrypt rt key input
          = Except.ok (none, "Unknown", some e))
      ∧ (∀ out e, cryptoProvider.SymmetricDecryption rt key input = Except.ok (out, some e) →
        (NewServitorOmega passwordProvider cryptoProvider).Decrypt rt key input
          = Except.ok (none, "Unknown", some e))
      ∧ (∀ sa : ServitorAlpha, rt.rs.fails = false →
          ¬ (key.length = 16 ∨ key.length = 24 ∨ key.length = 32) →
          (NewServitorOmega passwordProvider (CryptoProvider.alpha sa)).Encrypt rt key input
            = Except.ok (none, "Unknown", some (GoError.servitor
                (ServitorError.invalidKeyLengthAlpha (key.length : Int)))))
      ∧ (∀ sa : ServitorAlpha, 16 ≤ input.length →
          ¬ (key.length = 16 ∨ key.length = 24 ∨ key.length = 32) →
          (NewServitorOmega passwordProvider (CryptoProvider.alpha sa)).Decrypt rt key input
            = Except.ok (none, "Unknown", some (GoError.servitor
                (ServitorError.aesKeySizeError (key.length : Int))))) := by
  refine ⟨?_, ?_, ?_, ?_⟩
  · intro out e h
    simp only [ServitorOmega.Encrypt, NewServitorOmega, h, bind, Except.bind, pure,
      Except.pure, AlgorithmUnknown]
  · intro out e h
    simp only [ServitorOmega.Decrypt, NewServitorOmega, h, bind, Except.bind, pure,
      Except.pure, AlgorithmUnknown]
  · intro sa hrs hkey
    have h := alpha_encryption_invalid_key sa rt.aes rt.rs key input hrs hkey
    simp only [ServitorOmega.Encrypt, NewServitorOmega, CryptoProvider.SymmetricEncryption, h,
      goErr, returnedBytes, bind, Except.bind, pure, Except.pure, AlgorithmUnknown]
  · intro sa hlen hkey
    have h := alpha_decryption_invalid_key sa rt.aes key input hlen hkey
    simp only [ServitorOmega.Decrypt, NewServitorOmega, CryptoProvider.SymmetricDecryption, h,
      goErr, returnedBytes, bind, Except.bind, pure, Except.pure, AlgorithmUnknown]

theorem omega_failure_witness :
    (NewServitorOmega (PasswordProvider.beta (NewServitorBeta 32 24))
        (CryptoProvider.alpha NewServitorAlpha)).Encrypt sampleRuntime (sampleKey16 ++ [0])
        sampleMessage
      = Except.ok (none, "Unknown", some (GoError.servitor
          (ServitorError.invalidKeyLengthAlpha ((sampleKey16 ++ [0]).length : Int)))) :=
  (omega_failure (PasswordProvider.beta (NewServitorBeta 32 24))
    (CryptoProvider.alpha NewServitorAlpha) sampleRuntime (sampleKey16 ++ [0])
    sampleMessage).2.2.1 NewServitorAlpha rfl (by decide)

end Servitor

/-! ## The trackers' `getNextId` -/

/-- The maximum loop of `getNextId`: the result is at least the start value and every
projected element, and it is the start value or one of the projected elements. -/
theorem foldl_max_spec {α : Type} (f : α → Int) (l : List α) (start : Int) :
    start ≤ l.foldl (fun m t => if f t > m then f t else m) start
      ∧ (∀ t ∈ l, f t ≤ l.foldl (fun m t => if f t > m then f t else m) start)
      ∧ (l.foldl (fun m t => if f t > m then f t else m) start = start
          ∨ ∃ t ∈ l, l.foldl (fun m t => if f t > m then f t else m) start = f t) := by
  induction l generalizing start with
  | nil => exact ⟨le_refl _, fun t ht => absurd ht (List.not_mem_nil t), Or.inl rfl⟩
  | cons a l ih =>
    obtain ⟨h1, h2, h3⟩ := ih (if f a > start then f a else start)
    simp only [List.foldl_cons]
    have hstep : start ≤ (if f a > start then f a else start)
        ∧ f a ≤ (if f a > start then f a else start) := by
      split <;> omega
    refine ⟨by omega, ?_, ?_⟩
    · intro t ht
      rcases List.mem_cons.mp ht with h | h
      · rw [h]
        omega
      · exact h2 t h
    · rcases h3 with h | ⟨t, ht, h⟩
      · by_cases hc : f a > start
        · rw [if_pos hc] at h
          exact Or.inr ⟨a, List.mem_cons_self a l, by rw [if_pos hc]; exact h⟩
        · rw [if_neg hc] at h
          exact Or.inl (by rw [if_neg hc]; exact h)
      · exact Or.inr ⟨t, List.mem_cons_of_mem a ht, h⟩

theorem wrapInt64_of_range (x : Int) (h0 : 0 ≤ x) (h1 : x ≤ maxInt64) : wrapInt64 x = x := by
  simp only [maxInt64] at h1
  simp only [wrapInt64]
  omega

/-- C30 as stated fails: for the one-element task list whose task has the largest `int`
as ID, `maxId + 1` wraps around and `getNextId` returns the smallest `int`, which is
neither at least 1 nor greater than the ID in the list. -/
theorem getNextId_counterexample :
    TaskTracker.getNextId [TaskTracker.Task.mk 9223372036854775807 "x" "todo" 0 0]
        = -9223372036854775808
      ∧ ¬ (1 ≤ TaskTracker.getNextId [TaskTracker.Task.mk 9223372036854775807 "x" "todo" 0 0])
      ∧ ¬ ((9223372036854775807 : Int)
          < TaskTracker.getNextId [TaskTracker.Task.mk 9223372036854775807 "x" "todo" 0 0]) := by
  decide

/-- C30 (amended): for every list of tasks (respectively expenses) whose IDs are all below
the largest `int`, `getNextId` returns an ID that is at least 1 and strictly greater than
the ID of every element of the list; for the empty list it returns 1. -/
theorem getNextId_fresh (tasks : List TaskTracker.Task)
    (expenses : List ExpenseTracker.Expense)
    (ht : ∀ t ∈ tasks, t.ID < maxInt64) (he : ∀ e ∈ expenses, e.Id < maxInt64) :
    (1 ≤ TaskTracker.getNextId tasks ∧ ∀ t ∈ tasks, t.ID < TaskTracker.getNextId tasks)
      ∧ (1 ≤ ExpenseTracker.getNextId expenses
          ∧ ∀ e ∈ expenses, e.Id < ExpenseTracker.getNextId expenses)
      ∧ TaskTracker.getNextId [] = 1
      ∧ ExpenseTracker.getNextId [] = 1 := by
  refine ⟨?_, ?_, by decide, by decide⟩
  · obtain ⟨h1, h2, h3⟩ := foldl_max_spec (fun t : TaskTracker.Task => t.ID) tasks 0
    have hmax : tasks.foldl (fun m t => if t.ID > m then t.ID else m) 0 < maxInt64 := by
      rcases h3 with h | ⟨t, htm, h⟩
      · rw [h]
        decide
      · rw [h]
        exact ht t htm
    have hw := wrapInt64_of_range
      (tasks.foldl (fun m t => if t.ID > m then t.ID else m) 0 + 1) (by omega) (by omega)
    simp only [TaskTracker.getNextId]
    rw [hw]
    refine ⟨by omega, ?_⟩
    intro t htm
    have := h2 t htm
    omega
  · obtain ⟨h1, h2, h3⟩ := foldl_max_spec (fun e : ExpenseTracker.Expense => e.Id) expenses 0
    have hmax : expenses.foldl (fun m e => if e.Id > m then e.Id else m) 0 < maxInt64 := by
      rcases h3 with h | ⟨e, hem, h⟩
      · rw [h]
        decide
      · rw [h]
        exact he e hem
    have hw := wrapInt64_of_range
      (expenses.foldl (fun m e => if e.Id > m then e.Id else m) 0 + 1) (by omega) (by omega)
    simp only [ExpenseTracker.getNextId]
    rw [hw]
    refine ⟨by omega, ?_⟩
    intro e hem
    have := h2 e hem
    omega

theorem getNextId_fresh_witness :
    (1 ≤ TaskTracker.getNextId [TaskTracker.Task.mk 3 "a" "todo" 0 0,
          TaskTracker.Task.mk 7 "b" "done" 0 0]
        ∧ ∀ t ∈ [TaskTracker.Task.mk 3 "a" "todo" 0 0, TaskTracker.Task.mk 7 "b" "done" 0 0],
            t.ID < TaskTracker.getNextId [TaskTracker.Task.mk 3 "a" "todo" 0 0,
              TaskTracker.Task.mk 7 "b" "done" 0 0])
      ∧ (1 ≤ ExpenseTracker.getNextId [ExpenseTracker.Expense.mk 5 0 "c" 12]
          ∧ ∀ e ∈ [ExpenseTracker.Expense.mk 5 0 "c" 12],
              e.Id < ExpenseTracker.getNextId [ExpenseTracker.Expense.mk 5 0 "c" 12])
      ∧ TaskTracker.getNextId [] = 1
      ∧ ExpenseTracker.getNextId [] = 1 :=
  getNextId_fresh [TaskTracker.Task.mk 3 "a" "todo" 0 0, TaskTracker.Task.mk 7 "b" "done" 0 0]
    [ExpenseTracker.Expense.mk 5 0 "c" 12] (by decide) (by decide)
